import Mathlib

/-!
# Verification of the `CountTree` rank-indexed balanced binary tree

Shallow embedding of `src/count.rs` (crate `binary-tree`).  A `CountNode<T>`
owns a value, two optional child subtrees, and two cached statistics
(`count : u32`, `height : u16`); a `CountTree<T>` is an optional root node.
We model the optional-node pointer structure as a single inductive with a
`nil` constructor playing the role of `None`, and we carry the two cached
statistics as explicit fields so that stale or inconsistent caches are
representable, exactly as in the source.

The `u32`/`u16` counters are modelled as `Nat`.  The crate documents the
container for fewer than 2^32 elements (count.rs line 12), and within that
domain the unbounded model agrees with the machine arithmetic; the one place
where 32-bit overflow is reachable inside the documented domain is the
bit-smearing helper `exp_floor_log`, whose `efl += 1` step is therefore
modelled with an explicit `% 2^32`.

The crate's `lib.rs` and `iter.rs` (trait `Node`/`NodeMut` with the generic
walk engine, the rotation primitives, `insert_before`, and the generic
in-order iterators) are not part of the provided sources; those operations
are modelled from the spec (§4.1, §4.3, §4.5 of spec.md) and are marked
`Modelled from the spec:` in their doc comments.
-/

/-- The node/optional-subtree type: `nil` is Rust's `None`, and
`node val left right count height` is `Some(Box(CountNode { .. }))` with the
two cached statistics stored as plain naturals (source: count.rs 266-272). -/
inductive CTree (α : Type) where
  | nil : CTree α
  | node (val : α) (left : CTree α) (right : CTree α) (count : Nat) (height : Nat) : CTree α
deriving Repr, DecidableEq

namespace CTree

variable {α : Type}

/-- Cached subtree count, `0` for a missing subtree: this is the
`map_or(0, |tree| tree.count)` read used by `lcount`/`rcount`/`len`
(count.rs 285-291, 33-35). -/
def tcount : CTree α → Nat
  | nil => 0
  | node _ _ _ c _ => c

/-- Cached subtree height with a missing subtree read as `0`, as in
`map_or(0, |tree| tree.height)` (count.rs 329-330). -/
def theight : CTree α → Nat
  | nil => 0
  | node _ _ _ _ h => h

/-- Cached height as an integer with a missing subtree counted as `-1`;
this is the "missing child is one level shorter than a leaf" convention the
balance factor uses (count.rs 294-305, spec §4.3). -/
def ht : CTree α → Int
  | nil => -1
  | node _ _ _ _ h => (h : Int)

/-- `CountNode::new` (count.rs 275-283): a fresh singleton node with
`count = 1`, `height = 0`. -/
def leaf (v : α) : CTree α := node v nil nil 1 0

/-- `CountNode::update_stats` (count.rs 326-334): recompute the two cached
statistics from the children's caches; the height gets `+1` exactly when the
recomputed count exceeds 1. -/
def update_stats : CTree α → CTree α
  | nil => nil
  | node v l r _ _ =>
    let c := tcount l + tcount r + 1
    let h0 := max (theight l) (theight r)
    node v l r c (if 1 < c then h0 + 1 else h0)

/-- `CountNode::balance_factor` (count.rs 294-305): `0` for a (cached)
singleton, `±(1 + child height)` when exactly one child is present, else the
difference of the two cached heights.  The source `unwrap`s would panic on a
node whose cached count is not 1 although both children are missing; that
branch (unreachable for any node with consistent caches) is given the value
`0` here. -/
def bf : CTree α → Int
  | nil => 0
  | node _ l r c _ =>
    if c = 1 then 0
    else
      match l, r with
      | nil, nil => 0
      | nil, node _ _ _ _ rh => -1 - (rh : Int)
      | node _ _ _ _ lh, nil => 1 + (lh : Int)
      | node _ _ _ _ lh, node _ _ _ _ rh => (lh : Int) - (rh : Int)

/-- Modelled from the spec (§4.3): `NodeMut::rotate_right` (declared in the
crate's lib.rs, not under src/), returning `none` for the `Err(())` case.
The left child becomes the new subtree root, its former right subtree becomes
the demoted node's left subtree, and statistics are recomputed child first. -/
def rotR : CTree α → Option (CTree α)
  | node v (node lv ll lr lc lh) r c h =>
    some (update_stats (node lv ll (update_stats (node v lr r c h)) lc lh))
  | _ => none

/-- Modelled from the spec (§4.3): `NodeMut::rotate_left`, the mirror of
`rotR`. -/
def rotL : CTree α → Option (CTree α)
  | node v l (node rv rl rr rc rh) c h =>
    some (update_stats (node rv (update_stats (node v l rl c h)) rr rc rh))
  | _ => none

/-- `CountNode::rebalance` (count.rs 308-324): the AVL step.  The source
`unwrap`s its rotations; whenever the guarding balance-factor test fires the
needed child is present, so the `Option.getD` default branches are
unreachable (this is provable for every input). -/
def rebalance (t : CTree α) : CTree α :=
  if 1 < bf t then
    let t1 :=
      match t with
      | node v l r c h => if bf l < 0 then node v ((rotL l).getD l) r c h else node v l r c h
      | nil => nil
    (rotR t1).getD t1
  else if bf t < -1 then
    let t1 :=
      match t with
      | node v l r c h => if 0 < bf r then node v l ((rotR r).getD r) c h else node v l r c h
      | nil => nil
    (rotL t1).getD t1
  else t

/-- `CountTree::len` (count.rs 33-35): the root's cached count, `0` when
empty. -/
def tlen (t : CTree α) : Nat := tcount t

/-- The descent of `CountTree::get` (count.rs 39-62), written with the index
made relative to the current subtree: the source keeps an absolute index and
an `up_count` of elements known to lie left of the subtree, and compares
`index` against `cur_index = lcount + up_count`; going right it sets
`up_count = cur_index + 1`, which is exactly the relative index
`i - (lcount + 1)` below.  Falling off a missing child (possible only with
inconsistent caches, where the source would then fail its `assert`) yields
`none`. -/
def nodeGet : CTree α → Nat → Option α
  | nil, _ => none
  | node v l r _ _, i =>
    if i < tcount l then nodeGet l i
    else if i = tcount l then some v
    else nodeGet r (i - tcount l - 1)

/-- `CountTree::get` (count.rs 39-62): out-of-bounds indices answer `none`
before any walk. -/
def get? (t : CTree α) (i : Nat) : Option α :=
  if tlen t ≤ i then none else nodeGet t i

/-- Modelled from the spec (§4.1, §4.2): the append walk
`walk_mut(|_| Right, |node| node.insert_right(new), up)` of the crate's
walk engine — descend right until the right child is missing, attach `new`
there (`insert_right` recomputes the stats), and run the fix-up callback at
the mutation point and at every ancestor on the way back to the root
("re-run the fix-up/rebalance callback on every ancestor from the mutation
point to the root", spec §4.2); reattachment on the way up recomputes each
ancestor's statistics (`insert_right` in the walk engine).  Also the inner
walk of `insert_before` (spec §4.2), with `up` the caller's callback. -/
def walkApp (up : CTree α → CTree α) (new : CTree α) : CTree α → CTree α
  | nil => nil
  | node v l nil c h => up (update_stats (node v l new c h))
  | node v l (node rv rl rr rc rh) c h =>
    up (update_stats (node v l (walkApp up new (node rv rl rr rc rh)) c h))

/-- Modelled from the spec (§4.2): `NodeMut::insert_before` (declared in the
crate's lib.rs) — insert `new` immediately before this node in positional
order: if there is no left child, `new` becomes the left child; otherwise
`new` is appended at the rightmost position of the left subtree (the inner
right-walk, with the caller's fix-up `up` run back up that subtree), and the
left subtree is reattached, recomputing this node's statistics. -/
def insBefore (up : CTree α → CTree α) (new : CTree α) : CTree α → CTree α
  | nil => nil
  | node v nil r c h => update_stats (node v new r c h)
  | node v (node lv ll lr lc lh) r c h =>
    update_stats (node v (walkApp up new (node lv ll lr lc lh)) r c h)

/-- The order-statistics insertion walk of `CountTree::insert` for
`index < len` (count.rs 78-92), with the index made relative exactly as in
`nodeGet`.  At the stop node the new node is inserted before it
(`insert_before`, with the rebalance fix-up), and the fix-up runs at the
stop node and every ancestor while unwinding (spec §4.1/§4.2); reattachment
recomputes each ancestor's statistics.  The walk only steps left when the
left child's cached count is positive, so a missing left child cannot be
entered; stepping right onto a missing child stops at the current node (as
the walk engine does), where the stop action runs. -/
def insertAt (new : CTree α) : CTree α → Nat → CTree α
  | nil, _ => nil
  | node v l r c h, i =>
    if i < tcount l then
      rebalance (update_stats (node v (insertAt new l i) r c h))
    else if i = tcount l then
      rebalance (insBefore rebalance new (node v l r c h))
    else
      match r with
      | nil => rebalance (insBefore rebalance new (node v l r c h))
      | node rv rl rr rc rh =>
        rebalance (update_stats (node v l (insertAt new (node rv rl rr rc rh) (i - tcount l - 1)) c h))

/-- `CountTree::insert` (count.rs 71-102).  `none` is the
`panic!("index out of bounds!")` branch; every `index ≤ len` succeeds.  An
empty tree with `index = 0` installs the new node as root directly; an
in-range index runs the order-statistics walk; `index = len` runs the append
walk. -/
def insertO (t : CTree α) (i : Nat) (v : α) : Option (CTree α) :=
  if tlen t = 0 ∧ i = 0 then some (leaf v)
  else if i < tlen t then some (insertAt (leaf v) t i)
  else if i = tlen t then some (walkApp rebalance (leaf v) t)
  else none

/-- In-order (positional) sequence of the tree; this is the order both
iterators produce (spec §4.5). -/
def toList : CTree α → List α
  | nil => []
  | node v l r _ _ => toList l ++ v :: toList r

/-- Real number of nodes, independent of the cached counts. -/
def realSize : CTree α → Nat
  | nil => 0
  | node _ l r _ _ => realSize l + realSize r + 1

/-- The cached statistics of every node are consistent:
`count = 1 + count(left) + count(right)` and the height law of
`update_stats` (count.rs 326-334). -/
def statsOk : CTree α → Bool
  | nil => true
  | node _ l r c h =>
    statsOk l && statsOk r && (c = tcount l + tcount r + 1)
      && (h = if 1 < c then max (theight l) (theight r) + 1 else max (theight l) (theight r))

/-- Every node of the tree satisfies the AVL balance invariant
`|balance_factor| ≤ 1` (spec §8). -/
def avlOk : CTree α → Bool
  | nil => true
  | node v l r c h => avlOk l && avlOk r && (bf (node v l r c h)).natAbs ≤ 1

end CTree

/-- `is_power` (count.rs 125-131): `v != 0 && v & (v - 1) == 0`.  The bit
test is width-independent, so the `Nat` rendering is exact for every `u32`
input. -/
def is_power (v : Nat) : Bool :=
  if v = 0 then false else v &&& (v - 1) = 0

/-- `exp_floor_log` (count.rs 133-146): bit-smear `v - 1`, add one, halve.
The `efl += 1` step is a `u32` addition and its overflow is reachable inside
the type's domain (any non-power `v > 2^31` smears to `2^32 - 1`), so that
step carries an explicit `% 2^32`; all other steps cannot overflow. -/
def exp_floor_log (v : Nat) : Nat :=
  if v = 0 ∨ is_power v then v
  else
    let e1 := v - 1
    let e2 := e1 ||| (e1 >>> 1)
    let e3 := e2 ||| (e2 >>> 2)
    let e4 := e3 ||| (e3 >>> 4)
    let e5 := e4 ||| (e4 >>> 8)
    let e6 := e5 ||| (e5 >>> 16)
    ((e6 + 1) % 2 ^ 32) >>> 1

namespace CTree

variable {α : Type}

/-- The carry-propagation loop of `from_iter` (count.rs 167-172): while the
low bits of `rcount` keep matching the growing all-ones mask
`rotate_points`, rotate the root right (`none` models the `.unwrap()` panic
of a failed rotation).  Termination: the mask grows strictly and a matching
mask is at most `rcount`. -/
def carryRots (rc : Nat) (rp : Nat) (t : CTree α) : Option (CTree α) :=
  if h : rc &&& rp = rp then
    match rotR t with
    | none => none
    | some t' => carryRots rc (2 * rp + 1) t'
  else some t
termination_by rc + 1 - rp
decreasing_by
  have hle : rc &&& rp ≤ rc := Nat.and_le_left
  omega

/-- One iteration of the incremental pass of `from_iter` (count.rs 157-172):
wrap the tree so far as the left child of a fresh node holding the new item
(`insert_left` recomputes the stats), then run the carry rotations, keyed by
`count >> 1` when `count + 1` is a power of two and by `count` otherwise.
`cnt` is the running element count after the new item. -/
def buildStep (t : CTree α) (cnt : Nat) (x : α) : Option (CTree α) :=
  let t' := update_stats (node x t nil 1 0)
  let rc := if is_power (cnt + 1) then cnt >>> 1 else cnt
  carryRots rc 1 t'

/-- The incremental pass of `from_iter` over the remaining items
(count.rs 157-173), threading the running count. -/
def buildFold (t : CTree α) (cnt : Nat) : List α → Option (CTree α × Nat)
  | [] => some (t, cnt)
  | x :: xs =>
    match buildStep t (cnt + 1) x with
    | none => none
    | some t' => buildFold t' (cnt + 1) xs

/-- The inner walk of the final corrective pass (count.rs 178-185):
modelled from the spec (§4.1) — the step callback rotates the node right
while its balance factor exceeds 1 and then descends into the (new) right
child, stopping otherwise; the stop and fix-up callbacks do nothing, but
reattachment on the way up recomputes each ancestor's statistics.  `none`
models the `.unwrap()` panic of a failed rotation.  Termination: the
recursion descends into a tree of strictly smaller real size. -/
def fixWalk : CTree α → Option (CTree α)
  | nil => some nil
  | node v l r c h =>
    if 1 < bf (node v l r c h) then
      match l with
      | nil => none
      | node lv ll lr lc lh =>
        match fixWalk (update_stats (node v lr r c h)) with
        | none => none
        | some nr => some (update_stats (node lv ll nr lc lh))
    else some (node v l r c h)
termination_by t => realSize t
decreasing_by
  simp [realSize, update_stats]
  omega

/-- Cached count of the root's left child (`node.lcount()`). -/
def tlcount : CTree α → Nat
  | nil => 0
  | node _ l _ _ _ => tcount l

/-- The final corrective loop of `from_iter` (count.rs 174-187): while
`lcount + 1` exceeds `balanced_till`, rotate the root right and run the
inner walk on the (always present) new right child.  The source loop keeps
the root's own cached statistics untouched across the inner walk, and so
does this model.  The loop variable `count` is re-read from the cached
`lcount`; the `fuel` argument bounds the iterations so the function is
total — `from_iter` passes fuel exceeding the root's `lcount`, which the
iteration strictly decreases, so fuel exhaustion (`none`) only stands in
for executions the source would not complete. -/
def finalFix (fuel : Nat) (bt : Nat) (t : CTree α) : Option (CTree α) :=
  if bt < tlcount t + 1 then
    match fuel with
    | 0 => none
    | fuel' + 1 =>
      match rotR t with
      | none => none
      | some nil => none
      | some (node v l r c h) =>
        match fixWalk r with
        | none => none
        | some r' => finalFix fuel' bt (node v l r' c h)
  else some t

/-- `FromIterator::from_iter` (count.rs 148-192): `none` for the empty
input; otherwise seed with the first item, run the incremental pass, compute
`balanced_till = exp_floor_log(count + 1) - 1`, and run the final corrective
loop. -/
def fromIterO (l : List α) : Option (CTree α) :=
  match l with
  | [] => some nil
  | x :: xs =>
    match buildFold (leaf x) 1 xs with
    | none => none
    | some (t, cnt) => finalFix (cnt + 1) (exp_floor_log (cnt + 1) - 1) t

/-- Trees reachable through the public constructors: `new` (count.rs 28-30),
any succeeding `insert` (count.rs 71-102), and any completing bulk
construction (count.rs 148-192). -/
inductive Reachable : CTree α → Prop
  | new : Reachable nil
  | insert (t : CTree α) (i : Nat) (v : α) (t' : CTree α) :
      Reachable t → insertO t i v = some t' → Reachable t'
  | fromIter (l : List α) (t : CTree α) : fromIterO l = some t → Reachable t

/-- Trees reachable through `new` and `insert` only (no bulk
construction). -/
inductive ReachableIns : CTree α → Prop
  | new : ReachableIns nil
  | insert (t : CTree α) (i : Nat) (v : α) (t' : CTree α) :
      ReachableIns t → insertO t i v = some t' → ReachableIns t'

/-- State of the by-reference iterator `Iter` (count.rs 207-227): the
generic in-order iterator of iter.rs is modelled from the spec (§4.5) as
the list of values still to be yielded, alongside the wrapper's explicit
`remaining` counter. -/
structure IterSt (α : Type) where
  remaining : Nat
  rest : List α
deriving Repr, DecidableEq

/-- `IntoIterator for &CountTree` (count.rs 195-205): the inner iterator
starts at the root and `remaining` starts at `len()`. -/
def iterInit (t : CTree α) : IterSt α := ⟨tlen t, toList t⟩

/-- `Iter::next` (count.rs 215-220): decrement `remaining` if positive, then
pull from the inner iterator. -/
def iterNext : IterSt α → Option α × IterSt α
  | ⟨rem, rest⟩ =>
    let rem' := if 0 < rem then rem - 1 else rem
    match rest with
    | [] => (none, ⟨rem', []⟩)
    | x :: xs => (some x, ⟨rem', xs⟩)

/-- `Iter::size_hint` (count.rs 222-224): exactly `remaining` both low and
high. -/
def sizeHint (s : IterSt α) : Nat × Option Nat := (s.remaining, some s.remaining)

/-- The iterator state after `k` calls to `next`.  `IntoIter`
(count.rs 244-262) has the same fields and the same `next`/`size_hint`
bodies as `Iter`, with owned values instead of references, so this one model
covers both. -/
def iterSteps : Nat → IterSt α → IterSt α
  | 0, s => s
  | k + 1, s => iterSteps k (iterNext s).2

/-- The root value, as read by `tree.root().unwrap().value()` in the
crate's tests (count.rs 451). -/
def rootVal : CTree α → Option α
  | nil => none
  | node v _ _ _ _ => some v

/-- Sum of powers of two named by a list of bit positions; an ascending
list is a binary representation of its `bsum`. -/
def bsum (bs : List Nat) : Nat := (bs.map (2 ^ ·)).sum

/-- Perfect subtrees with consistent caches: `Perfect t k` says `t` is a
complete tree with `2^k - 1` nodes (so `Perfect nil 0`, and a rank-`(k+1)`
perfect node has two rank-`k` perfect children, cached count `2^(k+1) - 1`
and cached height `k`).  The incremental pass of `from_iter` assembles the
tree from such blocks. -/
inductive Perfect : CTree α → Nat → Prop where
  | nil : Perfect nil 0
  | node (v : α) {l r : CTree α} {k : Nat} :
      Perfect l k → Perfect r k →
      Perfect (node v l r (2 ^ (k + 1) - 1) k) (k + 1)

/-- The left-spine shape maintained by the incremental pass of `from_iter`:
`SpineT t (e :: bs)` says the root's right subtree is a perfect block of
rank `e` (the lowest bit), and the left subtree is the spine for the higher
bits `bs`; a single perfect block is the base case.  For an ascending list
`bs`, a spine for `bs` holds `bsum bs - 1` elements. -/
inductive SpineT : CTree α → List Nat → Prop where
  | base {t : CTree α} {b : Nat} : Perfect t b → SpineT t [b]
  | cons (v : α) {l r : CTree α} {c h e : Nat} {bs : List Nat} :
      SpineT l bs → Perfect r e → (∀ b ∈ bs, e < b) →
      c = tcount l + 2 ^ e → h = theight l + 1 →
      SpineT (node v l r c h) (e :: bs)

/-! ### Basic lemmas about the cached statistics -/

@[simp] lemma tcount_nil : tcount (nil : CTree α) = 0 := rfl

@[simp] lemma tcount_node (v : α) (l r : CTree α) (c h : Nat) :
    tcount (node v l r c h) = c := rfl

@[simp] lemma theight_nil : theight (nil : CTree α) = 0 := rfl

@[simp] lemma theight_node (v : α) (l r : CTree α) (c h : Nat) :
    theight (node v l r c h) = h := rfl

@[simp] lemma ht_nil : ht (nil : CTree α) = -1 := rfl

@[simp] lemma ht_node (v : α) (l r : CTree α) (c h : Nat) :
    ht (node v l r c h) = (h : Int) := rfl

@[simp] lemma toList_nil : toList (nil : CTree α) = [] := rfl

@[simp] lemma toList_node (v : α) (l r : CTree α) (c h : Nat) :
    toList (node v l r c h) = toList l ++ v :: toList r := rfl

@[simp] lemma toList_leaf (v : α) : toList (leaf v) = [v] := rfl

@[simp] lemma realSize_nil : realSize (nil : CTree α) = 0 := rfl

@[simp] lemma realSize_node (v : α) (l r : CTree α) (c h : Nat) :
    realSize (node v l r c h) = realSize l + realSize r + 1 := rfl

@[simp] lemma statsOk_nil : statsOk (nil : CTree α) = true := rfl

lemma statsOk_node {v : α} {l r : CTree α} {c h : Nat} :
    statsOk (node v l r c h) = true ↔
      statsOk l = true ∧ statsOk r = true ∧ c = tcount l + tcount r + 1 ∧
        h = if 1 < c then max (theight l) (theight r) + 1 else max (theight l) (theight r) := by
  simp [statsOk, Bool.and_eq_true, decide_eq_true_eq, and_assoc]

@[simp] lemma avlOk_nil : avlOk (nil : CTree α) = true := rfl

lemma avlOk_node {v : α} {l r : CTree α} {c h : Nat} :
    avlOk (node v l r c h) = true ↔
      avlOk l = true ∧ avlOk r = true ∧ (bf (node v l r c h)).natAbs ≤ 1 := by
  simp [avlOk, Bool.and_eq_true, decide_eq_true_eq, and_assoc]

@[simp] lemma tlen_eq_tcount (t : CTree α) : tlen t = tcount t := rfl

@[simp] lemma statsOk_leaf (v : α) : statsOk (leaf v) = true := rfl

/-- With consistent caches, the cached count is the real node count. -/
lemma statsOk_tcount {t : CTree α} (hs : statsOk t = true) : tcount t = realSize t := by
  induction t with
  | nil => rfl
  | node v l r c h ihl ihr =>
    rcases statsOk_node.1 hs with ⟨hl, hr, hc, _⟩
    simp [hc, ihl hl, ihr hr]

/-- The real node count is the length of the in-order sequence. -/
lemma realSize_eq_length (t : CTree α) : realSize t = (toList t).length := by
  induction t with
  | nil => rfl
  | node v l r c h ihl ihr => simp [ihl, ihr]; omega

lemma statsOk_tcount_toList {t : CTree α} (hs : statsOk t = true) :
    tcount t = (toList t).length := by
  rw [statsOk_tcount hs, realSize_eq_length]

/-- A stats-consistent node has positive cached count. -/
lemma statsOk_tcount_pos {v : α} {l r : CTree α} {c h : Nat}
    (hs : statsOk (node v l r c h) = true) : 0 < c := by
  rcases statsOk_node.1 hs with ⟨_, _, hc, _⟩
  omega

/-- With consistent caches, the balance factor is the difference of the
children's integer heights (missing child read as height `-1`). -/
lemma bf_eq_ht {v : α} {l r : CTree α} {c h : Nat}
    (hs : statsOk (node v l r c h) = true) :
    bf (node v l r c h) = ht l - ht r := by
  rcases statsOk_node.1 hs with ⟨hsl, hsr, hc, hh⟩
  cases l with
  | nil =>
    cases r with
    | nil => simp [bf, hc]
    | node rv rl rr rc' rh =>
      have : c ≠ 1 := by
        have := statsOk_tcount_pos (v := rv) (l := rl) (r := rr) hsr
        simp at hc; omega
      simp [bf, this, ht]
  | node lv ll lr lc' lh =>
    have hlc : 0 < lc' := statsOk_tcount_pos hsl
    cases r with
    | nil =>
      have : c ≠ 1 := by simp at hc; omega
      simp [bf, this, ht]; ring
    | node rv rl rr rc' rh =>
      have hrc : 0 < rc' := statsOk_tcount_pos hsr
      have : c ≠ 1 := by simp at hc; omega
      simp [bf, this, ht]

/-! ### Rotations and `rebalance`: order, statistics and count preservation -/

lemma update_stats_node (v : α) (l r : CTree α) (c h : Nat) :
    update_stats (node v l r c h) =
      node v l r (tcount l + tcount r + 1)
        (if 1 < tcount l + tcount r + 1 then max (theight l) (theight r) + 1
         else max (theight l) (theight r)) := rfl

@[simp] lemma toList_update_stats (t : CTree α) : toList (update_stats t) = toList t := by
  cases t <;> simp [update_stats]

@[simp] lemma tcount_update_stats_node (v : α) (l r : CTree α) (c h : Nat) :
    tcount (update_stats (node v l r c h)) = tcount l + tcount r + 1 := rfl

lemma statsOk_update_stats {v : α} {l r : CTree α} {c h : Nat}
    (hl : statsOk l = true) (hr : statsOk r = true) :
    statsOk (update_stats (node v l r c h)) = true := by
  rw [update_stats_node, statsOk_node]
  exact ⟨hl, hr, rfl, rfl⟩

lemma rotR_node_eq (v lv : α) (ll lr r : CTree α) (lc lh c h : Nat) :
    rotR (node v (node lv ll lr lc lh) r c h) =
      some (update_stats (node lv ll (update_stats (node v lr r c h)) lc lh)) := rfl

lemma rotL_node_eq (v rv : α) (l rl rr : CTree α) (rc rh c h : Nat) :
    rotL (node v l (node rv rl rr rc rh) c h) =
      some (update_stats (node rv (update_stats (node v l rl c h)) rr rc rh)) := rfl

lemma rotR_toList {t t' : CTree α} (hrot : rotR t = some t') : toList t' = toList t := by
  cases t with
  | nil => simp [rotR] at hrot
  | node v l r c h =>
    cases l with
    | nil => simp [rotR] at hrot
    | node lv ll lr lc lh =>
      rw [rotR_node_eq] at hrot
      cases hrot
      simp

lemma rotL_toList {t t' : CTree α} (hrot : rotL t = some t') : toList t' = toList t := by
  cases t with
  | nil => simp [rotL] at hrot
  | node v l r c h =>
    cases r with
    | nil => simp [rotL] at hrot
    | node rv rl rr rc rh =>
      rw [rotL_node_eq] at hrot
      cases hrot
      simp

lemma rotR_statsOk {v : α} {l r : CTree α} {c h : Nat} {t' : CTree α}
    (hrot : rotR (node v l r c h) = some t')
    (hl : statsOk l = true) (hr : statsOk r = true) :
    statsOk t' = true ∧ tcount t' = tcount l + tcount r + 1 := by
  cases l with
  | nil => simp [rotR] at hrot
  | node lv ll lr lc lh =>
    rw [rotR_node_eq] at hrot
    cases hrot
    rcases statsOk_node.1 hl with ⟨hsll, hslr, hlc, _⟩
    refine ⟨statsOk_update_stats hsll (statsOk_update_stats hslr hr), ?_⟩
    simp
    omega

lemma rotL_statsOk {v : α} {l r : CTree α} {c h : Nat} {t' : CTree α}
    (hrot : rotL (node v l r c h) = some t')
    (hl : statsOk l = true) (hr : statsOk r = true) :
    statsOk t' = true ∧ tcount t' = tcount l + tcount r + 1 := by
  cases r with
  | nil => simp [rotL] at hrot
  | node rv rl rr rc rh =>
    rw [rotL_node_eq] at hrot
    cases hrot
    rcases statsOk_node.1 hr with ⟨hsrl, hsrr, hrc, _⟩
    refine ⟨statsOk_update_stats (statsOk_update_stats hl hsrl) hsrr, ?_⟩
    simp
    omega

/-- A node with positive balance factor has a present left child (this is
what makes the `unwrap` after the guard in `rebalance` safe). -/
lemma bf_pos_left_node {v : α} {l r : CTree α} {c h : Nat}
    (hbf : 0 < bf (node v l r c h)) : ∃ lv ll lr lc lh, l = node lv ll lr lc lh := by
  by_contra hcon
  have hl : l = nil := by
    cases l with
    | nil => rfl
    | node lv ll lr lc lh => exact absurd ⟨lv, ll, lr, lc, lh, rfl⟩ hcon
  subst hl
  cases r with
  | nil => simp [bf] at hbf
  | node rv rl rr rc rh =>
    simp [bf] at hbf
    split at hbf <;> omega

/-- A node with negative balance factor has a present right child. -/
lemma bf_neg_right_node {v : α} {l r : CTree α} {c h : Nat}
    (hbf : bf (node v l r c h) < 0) : ∃ rv rl rr rc rh, r = node rv rl rr rc rh := by
  by_contra hcon
  have hr : r = nil := by
    cases r with
    | nil => rfl
    | node rv rl rr rc rh => exact absurd ⟨rv, rl, rr, rc, rh, rfl⟩ hcon
  subst hr
  cases l with
  | nil => simp [bf] at hbf
  | node lv ll lr lc lh =>
    simp [bf] at hbf
    split at hbf <;> omega

lemma toList_rotR_getD (t : CTree α) : toList ((rotR t).getD t) = toList t := by
  cases hrot : rotR t with
  | none => simp
  | some t' => simp [rotR_toList hrot]

lemma toList_rotL_getD (t : CTree α) : toList ((rotL t).getD t) = toList t := by
  cases hrot : rotL t with
  | none => simp
  | some t' => simp [rotL_toList hrot]

/-- `rebalance` never changes the in-order sequence, whatever the input. -/
lemma rebalance_toList (t : CTree α) : toList (rebalance t) = toList t := by
  cases t with
  | nil => simp [rebalance, bf]
  | node v l r c h =>
    simp only [rebalance]
    split_ifs <;> simp [toList_rotR_getD, toList_rotL_getD]

lemma ne_nil_of_tcount_pos {t : CTree α} (hpos : 0 < tcount t) : t ≠ nil := by
  cases t with
  | nil => simp at hpos
  | node v l r c h => simp

lemma getD_rotR_statsOk {v : α} {l r : CTree α} {c h : Nat}
    (hl : statsOk l = true) (hr : statsOk r = true) (hln : l ≠ nil) :
    statsOk ((rotR (node v l r c h)).getD (node v l r c h)) = true ∧
      tcount ((rotR (node v l r c h)).getD (node v l r c h)) = tcount l + tcount r + 1 := by
  cases l with
  | nil => exact absurd rfl hln
  | node lv ll lr lc lh =>
    rw [rotR_node_eq, Option.getD_some]
    exact rotR_statsOk (rotR_node_eq v lv ll lr r lc lh c h) hl hr

lemma getD_rotL_statsOk {v : α} {l r : CTree α} {c h : Nat}
    (hl : statsOk l = true) (hr : statsOk r = true) (hrn : r ≠ nil) :
    statsOk ((rotL (node v l r c h)).getD (node v l r c h)) = true ∧
      tcount ((rotL (node v l r c h)).getD (node v l r c h)) = tcount l + tcount r + 1 := by
  cases r with
  | nil => exact absurd rfl hrn
  | node rv rl rr rc rh =>
    rw [rotL_node_eq, Option.getD_some]
    exact rotL_statsOk (rotL_node_eq v rv l rl rr rc rh c h) hl hr

/-- `rebalance` keeps the caches consistent and the count unchanged. -/
lemma rebalance_statsOk {t : CTree α} (hs : statsOk t = true) :
    statsOk (rebalance t) = true ∧ tcount (rebalance t) = tcount t := by
  cases t with
  | nil => simp [rebalance, bf]
  | node v l r c h =>
    rcases statsOk_node.1 hs with ⟨hsl, hsr, hc, hh⟩
    simp only [rebalance]
    split_ifs with h1 h2 h3 h4
    · -- left-heavy, left child right-heavy: rotate the left child left, then right
      obtain ⟨lv, ll, llr, lc, lh, rfl⟩ :=
        bf_pos_left_node (show (0 : Int) < bf (node v l r c h) by omega)
      rcases statsOk_node.1 hsl with ⟨hsll, hsllr, hlc, _⟩
      obtain ⟨xv, xl, xr, xc, xh, rfl⟩ := bf_neg_right_node h2
      have hrot := getD_rotL_statsOk (v := lv) (c := lc) (h := lh) hsll hsllr (by simp)
      have hl2 : 0 < tcount ((rotL (node lv ll (node xv xl xr xc xh) lc lh)).getD
          (node lv ll (node xv xl xr xc xh) lc lh)) := by
        rw [hrot.2]; omega
      have hout := getD_rotR_statsOk (v := v) (r := r) (c := c) (h := h) hrot.1 hsr
        (ne_nil_of_tcount_pos hl2)
      refine ⟨hout.1, ?_⟩
      rw [hout.2, hrot.2]
      simp at hc hlc ⊢
      omega
    · -- left-heavy, single right rotation
      obtain ⟨lv, ll, llr, lc, lh, rfl⟩ :=
        bf_pos_left_node (show (0 : Int) < bf (node v l r c h) by omega)
      have hout := getD_rotR_statsOk (v := v) (r := r) (c := c) (h := h) hsl hsr (by simp)
      refine ⟨hout.1, ?_⟩
      rw [hout.2]
      simp at hc ⊢
      omega
    · -- right-heavy, right child left-heavy: rotate the right child right, then left
      obtain ⟨rv, rl, rrr, rc, rh, rfl⟩ :=
        bf_neg_right_node (show bf (node v l r c h) < 0 by omega)
      rcases statsOk_node.1 hsr with ⟨hsrl, hsrr, hrc, _⟩
      obtain ⟨xv, xl, xr, xc, xh, rfl⟩ := bf_pos_left_node h4
      have hrot := getD_rotR_statsOk (v := rv) (c := rc) (h := rh) hsrl hsrr (by simp)
      have hr2 : 0 < tcount ((rotR (node rv (node xv xl xr xc xh) rrr rc rh)).getD
          (node rv (node xv xl xr xc xh) rrr rc rh)) := by
        rw [hrot.2]; omega
      have hout := getD_rotL_statsOk (v := v) (l := l) (c := c) (h := h) hsl hrot.1
        (ne_nil_of_tcount_pos hr2)
      refine ⟨hout.1, ?_⟩
      rw [hout.2, hrot.2]
      simp at hc hrc ⊢
      omega
    · -- right-heavy, single left rotation
      obtain ⟨rv, rl, rrr, rc, rh, rfl⟩ :=
        bf_neg_right_node (show bf (node v l r c h) < 0 by omega)
      have hout := getD_rotL_statsOk (v := v) (l := l) (c := c) (h := h) hsl hsr (by simp)
      refine ⟨hout.1, ?_⟩
      rw [hout.2]
      simp at hc ⊢
      omega
    · exact ⟨hs, rfl⟩

/-! ### The insertion walks preserve the caches and shift the sequence -/

lemma walkApp_spec {new : CTree α} (hn : statsOk new = true) :
    ∀ {t : CTree α}, t ≠ nil → statsOk t = true →
      statsOk (walkApp rebalance new t) = true ∧
      tcount (walkApp rebalance new t) = tcount t + tcount new ∧
      toList (walkApp rebalance new t) = toList t ++ toList new := by
  intro t
  induction t with
  | nil => intro hne; exact absurd rfl hne
  | node v l r c h ihl ihr =>
    intro _ hs
    rcases statsOk_node.1 hs with ⟨hsl, hsr, hc, hh⟩
    cases r with
    | nil =>
      simp only [walkApp]
      have hreb := rebalance_statsOk (statsOk_update_stats (c := c) (h := h) (v := v) hsl hn)
      refine ⟨hreb.1, ?_, ?_⟩
      · rw [hreb.2]
        simp at hc ⊢
        omega
      · rw [rebalance_toList]
        simp
    | node rv rl rr rc rh =>
      have ihr2 := ihr (by simp) hsr
      simp only [walkApp]
      have hreb := rebalance_statsOk
        (statsOk_update_stats (c := c) (h := h) (v := v) hsl ihr2.1)
      refine ⟨hreb.1, ?_, ?_⟩
      · rw [hreb.2]
        simp only [tcount_update_stats_node]
        rw [ihr2.2.1]
        simp at hc ⊢
        omega
      · rw [rebalance_toList]
        simp [ihr2.2.2]

lemma insBefore_spec {new : CTree α} (hn : statsOk new = true)
    {v : α} {l r : CTree α} {c h : Nat} (hs : statsOk (node v l r c h) = true) :
    statsOk (insBefore rebalance new (node v l r c h)) = true ∧
      tcount (insBefore rebalance new (node v l r c h)) = c + tcount new ∧
      toList (insBefore rebalance new (node v l r c h)) =
        toList l ++ toList new ++ v :: toList r := by
  rcases statsOk_node.1 hs with ⟨hsl, hsr, hc, hh⟩
  cases l with
  | nil =>
    simp only [insBefore]
    refine ⟨statsOk_update_stats hn hsr, ?_, by simp⟩
    simp at hc ⊢
    omega
  | node lv ll lr lc lh =>
    have hwa := walkApp_spec hn (t := node lv ll lr lc lh) (by simp) hsl
    simp only [insBefore]
    refine ⟨statsOk_update_stats hwa.1 hsr, ?_, ?_⟩
    · simp only [tcount_update_stats_node]
      rw [hwa.2.1]
      simp at hc ⊢
      omega
    · simp [hwa.2.2]

lemma list_insert_middle (L1 R1 N : List α) (v : α) (i : Nat) (hgt : L1.length < i) :
    L1 ++ v :: (R1.take (i - L1.length - 1) ++ N ++ R1.drop (i - L1.length - 1)) =
      (L1 ++ v :: R1).take i ++ N ++ (L1 ++ v :: R1).drop i := by
  have h2 : L1.length ≤ i := by omega
  have h1 : i - L1.length = (i - L1.length - 1) + 1 := by omega
  rw [List.take_append_eq_append_take, List.drop_append_eq_append_drop,
    List.take_of_length_le h2, List.drop_eq_nil_of_le h2, h1]
  simp

lemma insertAt_node (new : CTree α) (v : α) (l r : CTree α) (c h : Nat) (i : Nat) :
    insertAt new (node v l r c h) i =
      if i < tcount l then rebalance (update_stats (node v (insertAt new l i) r c h))
      else if i = tcount l then rebalance (insBefore rebalance new (node v l r c h))
      else
        match r with
        | nil => rebalance (insBefore rebalance new (node v l r c h))
        | node rv rl rr rc rh =>
          rebalance (update_stats
            (node v l (insertAt new (node rv rl rr rc rh) (i - tcount l - 1)) c h)) := by
  cases r <;> rfl

lemma insertAt_spec {new : CTree α} (hn : statsOk new = true) :
    ∀ {t : CTree α} {i : Nat}, statsOk t = true → i < tcount t →
      statsOk (insertAt new t i) = true ∧
      tcount (insertAt new t i) = tcount t + tcount new ∧
      toList (insertAt new t i) =
        (toList t).take i ++ toList new ++ (toList t).drop i := by
  intro t
  induction t with
  | nil => intro i _ hi; simp at hi
  | node v l r c h ihl ihr =>
    intro i hs hi
    rcases statsOk_node.1 hs with ⟨hsl, hsr, hc, hh⟩
    have hlen_l : tcount l = (toList l).length := statsOk_tcount_toList hsl
    have hlen_r : tcount r = (toList r).length := statsOk_tcount_toList hsr
    rw [insertAt_node]
    split_ifs with h1 h2
    · -- descend left
      have ihl2 := ihl hsl h1
      have hreb := rebalance_statsOk
        (statsOk_update_stats (c := c) (h := h) (v := v) ihl2.1 hsr)
      refine ⟨hreb.1, ?_, ?_⟩
      · rw [hreb.2]
        simp only [tcount_update_stats_node]
        rw [ihl2.2.1]
        simp at hc ⊢
        omega
      · rw [rebalance_toList]
        simp only [toList_update_stats, toList_node]
        rw [ihl2.2.2]
        rw [List.take_append_of_le_length (by omega), List.drop_append_of_le_length (by omega)]
        simp
    · -- stop here: insert before this node
      have hib := insBefore_spec hn hs
      have hreb := rebalance_statsOk hib.1
      refine ⟨hreb.1, ?_, ?_⟩
      · rw [hreb.2, hib.2.1]
        simp
      · rw [rebalance_toList, hib.2.2, h2]
        simp only [toList_node]
        rw [hlen_l, List.take_append_of_le_length (by omega),
          List.drop_append_of_le_length (by omega)]
        simp
    · -- descend right
      cases r with
      | nil =>
        exfalso
        simp at hc hi
        omega
      | node rv rl rr rc rh =>
        have hir : i - tcount l - 1 < tcount (node rv rl rr rc rh) := by
          simp at hc hi ⊢
          omega
        have ihr2 := ihr hsr hir
        have hreb := rebalance_statsOk
          (statsOk_update_stats (c := c) (h := h) (v := v) hsl ihr2.1)
        refine ⟨hreb.1, ?_, ?_⟩
        · rw [hreb.2]
          simp only [tcount_update_stats_node]
          rw [ihr2.2.1]
          simp at hc hi ⊢
          omega
        · rw [rebalance_toList]
          simp only [toList_update_stats, toList_node]
          simp only [toList_node] at ihr2
          rw [ihr2.2.2, hlen_l]
          exact list_insert_middle (toList l) (toList rl ++ rv :: toList rr) (toList new) v i
            (by omega)

@[simp] lemma tcount_leaf (v : α) : tcount (leaf v) = 1 := rfl

/-- `CountTree::insert` at any index up to the length: succeeds, keeps the
caches consistent, increments the length, and splices the value into the
in-order sequence at the given position. -/
lemma insertO_spec {t : CTree α} {i : Nat} {v : α}
    (hs : statsOk t = true) (hi : i ≤ tlen t) :
    ∃ t', insertO t i v = some t' ∧ statsOk t' = true ∧ tlen t' = tlen t + 1 ∧
      toList t' = (toList t).take i ++ v :: (toList t).drop i := by
  have hlen : tcount t = (toList t).length := statsOk_tcount_toList hs
  by_cases h0 : tlen t = 0 ∧ i = 0
  · have h01 : tcount t = 0 := h0.1
    have h02 : i = 0 := h0.2
    have hemp : toList t = [] := List.length_eq_zero.1 (by omega)
    refine ⟨leaf v, ?_, by simp, ?_, ?_⟩
    · simp only [insertO]
      rw [if_pos h0]
    · simp only [tlen]
      rw [h01]
      simp
    · simp [hemp, h02, leaf]
  · rcases Nat.lt_or_ge i (tlen t) with hlt | hge
    · have hspec := @insertAt_spec α (leaf v) (by simp) t i hs hlt
      refine ⟨insertAt (leaf v) t i, ?_, hspec.1, ?_, ?_⟩
      · simp only [insertO]
        rw [if_neg h0, if_pos hlt]
      · have h21 := hspec.2.1
        simp only [tlen]
        rw [h21]
        simp
      · rw [hspec.2.2]
        simp
    · have heq : i = tlen t := le_antisymm hi hge
      have htne : t ≠ nil := by
        intro hnil
        subst hnil
        simp [tlen] at heq
        exact h0 ⟨rfl, heq⟩
      have hwa := @walkApp_spec α (leaf v) (by simp) t htne hs
      refine ⟨walkApp rebalance (leaf v) t, ?_, hwa.1, ?_, ?_⟩
      · simp only [insertO]
        rw [if_neg h0, if_neg (by omega), if_pos heq]
      · have h21 := hwa.2.1
        simp only [tlen]
        rw [h21]
        simp
      · rw [hwa.2.2, heq]
        simp only [tlen]
        rw [hlen]
        simp

/-- `insert` aborts (`panic`) exactly on indices beyond the length, for
every tree: no index at most `len` ever panics, and no index beyond `len`
is ever admitted. -/
lemma insertO_none_iff (t : CTree α) (i : Nat) (v : α) :
    insertO t i v = none ↔ tlen t < i := by
  simp only [insertO]
  split_ifs with h0 h1 h2 <;> simp only [tlen_eq_tcount] at * <;> simp <;> omega

/-- The in-order descent of `get` reads off the in-order sequence. -/
lemma nodeGet_eq {t : CTree α} (hs : statsOk t = true) (i : Nat) :
    nodeGet t i = (toList t).get? i := by
  induction t generalizing i with
  | nil => simp [nodeGet]
  | node v l r c h ihl ihr =>
    rcases statsOk_node.1 hs with ⟨hsl, hsr, hc, hh⟩
    have hlen_l : tcount l = (toList l).length := statsOk_tcount_toList hsl
    simp only [nodeGet, toList_node]
    split_ifs with h1 h2
    · rw [ihl hsl, List.get?_append (by omega)]
    · rw [h2, hlen_l]
      rw [List.get?_append_right (by omega)]
      simp
    · rw [ihr hsr]
      rw [List.get?_append_right (by omega)]
      have : i - (toList l).length = (i - tcount l - 1) + 1 := by omega
      rw [this]
      simp

/-- `get` agrees with positional lookup in the in-order sequence; in
particular it answers `none` exactly for indices at or beyond `len`. -/
lemma get?_eq {t : CTree α} (hs : statsOk t = true) (i : Nat) :
    get? t i = (toList t).get? i := by
  simp only [get?]
  split_ifs with hle
  · rw [eq_comm, List.get?_eq_none]
    rw [← statsOk_tcount_toList hs]
    exact hle
  · exact nodeGet_eq hs i

/-! ### Height arithmetic for the AVL analysis -/

lemma ht_lower (t : CTree α) : -1 ≤ ht t := by
  cases t <;> simp [ht] <;> omega

/-- For a stats-consistent node, the cached height is one more than the
larger child height (children read as `-1` when missing). -/
lemma statsOk_ht {v : α} {l r : CTree α} {c h : Nat}
    (hs : statsOk (node v l r c h) = true) :
    (h : Int) = 1 + max (ht l) (ht r) := by
  rcases statsOk_node.1 hs with ⟨hsl, hsr, hc, hh⟩
  cases l with
  | nil =>
    cases r with
    | nil => subst hc; simp at hh; simp [hh]
    | node rv rl rr rc rh =>
      have := statsOk_tcount_pos hsr
      simp at hc
      subst hc
      rw [if_pos (by omega)] at hh
      simp at hh
      simp [hh]
      omega
  | node lv ll lr lc lh =>
    have hlp := statsOk_tcount_pos hsl
    cases r with
    | nil =>
      simp at hc
      subst hc
      rw [if_pos (by omega)] at hh
      simp at hh
      simp [hh]
      omega
    | node rv rl rr rc rh =>
      have hrp := statsOk_tcount_pos hsr
      simp at hc
      subst hc
      rw [if_pos (by omega)] at hh
      simp at hh
      simp [hh]
      omega

lemma ht_update_stats {v : α} {l r : CTree α} {c h : Nat}
    (hsl : statsOk l = true) (hsr : statsOk r = true) :
    ht (update_stats (node v l r c h)) = 1 + max (ht l) (ht r) := by
  have hs2 : statsOk (node v l r (tcount l + tcount r + 1)
      (if 1 < tcount l + tcount r + 1 then max (theight l) (theight r) + 1
       else max (theight l) (theight r))) = true := by
    rw [← update_stats_node (c := c) (h := h)]
    exact statsOk_update_stats hsl hsr
  rw [update_stats_node]
  exact statsOk_ht hs2

lemma avlOk_update_stats {v : α} {l r : CTree α} {c h : Nat}
    (hsl : statsOk l = true) (hsr : statsOk r = true)
    (hal : avlOk l = true) (har : avlOk r = true)
    (hb : (ht l - ht r).natAbs ≤ 1) :
    avlOk (update_stats (node v l r c h)) = true := by
  rw [update_stats_node, avlOk_node]
  refine ⟨hal, har, ?_⟩
  rw [bf_eq_ht (by rw [← update_stats_node (c := c) (h := h)]; exact statsOk_update_stats hsl hsr)]
  exact hb

lemma rebalance_id (t : CTree α) (h1 : ¬ 1 < bf t) (h2 : ¬ bf t < -1) :
    rebalance t = t := by
  unfold rebalance
  rw [if_neg h1, if_neg h2]

lemma rebalance_pos {v : α} {l r : CTree α} {c h : Nat}
    (hbf : 1 < bf (node v l r c h)) :
    rebalance (node v l r c h) =
      (rotR (if bf l < 0 then node v ((rotL l).getD l) r c h else node v l r c h)).getD
        (if bf l < 0 then node v ((rotL l).getD l) r c h else node v l r c h) := by
  unfold rebalance
  rw [if_pos hbf]

lemma rebalance_neg {v : α} {l r : CTree α} {c h : Nat}
    (hbf1 : ¬ 1 < bf (node v l r c h)) (hbf : bf (node v l r c h) < -1) :
    rebalance (node v l r c h) =
      (rotL (if 0 < bf r then node v l ((rotR r).getD r) c h else node v l r c h)).getD
        (if 0 < bf r then node v l ((rotR r).getD r) c h else node v l r c h) := by
  unfold rebalance
  rw [if_neg hbf1, if_pos hbf]

/-- The AVL step at a stats-consistent node whose children are AVL and whose
height difference is at most 2: `rebalance` restores the balance invariant,
keeps the caches consistent, and the resulting height lies between the
larger child height and one more than it (with equality to the latter when
no rotation was needed). -/
lemma rebalance_avl_node {v : α} {l r : CTree α} {cu hu : Nat}
    (hsu : statsOk (node v l r cu hu) = true)
    (hal : avlOk l = true) (har : avlOk r = true)
    (hd2 : (ht l - ht r).natAbs ≤ 2) :
    statsOk (rebalance (node v l r cu hu)) = true ∧
    avlOk (rebalance (node v l r cu hu)) = true ∧
    max (ht l) (ht r) ≤ ht (rebalance (node v l r cu hu)) ∧
    ht (rebalance (node v l r cu hu)) ≤ 1 + max (ht l) (ht r) ∧
    ((ht l - ht r).natAbs ≤ 1 →
      ht (rebalance (node v l r cu hu)) = 1 + max (ht l) (ht r)) := by
  obtain ⟨hsl, hsr, hcu, hhu⟩ := statsOk_node.1 hsu
  have hhtu : (hu : Int) = 1 + max (ht l) (ht r) := statsOk_ht hsu
  have hbfu : bf (node v l r cu hu) = ht l - ht r := bf_eq_ht hsu
  by_cases hgt : 1 < bf (node v l r cu hu)
  · -- left-heavy by exactly 2
    have hD : ht l - ht r = 2 := by omega
    obtain ⟨lv, ll, lr, lc, lh, rfl⟩ :=
      bf_pos_left_node (show (0 : Int) < bf (node v l r cu hu) by omega)
    obtain ⟨hsll, hslr, hlc, hlh⟩ := statsOk_node.1 hsl
    have hhtl : (lh : Int) = 1 + max (ht ll) (ht lr) := statsOk_ht hsl
    obtain ⟨hall, halr, hbfl⟩ := avlOk_node.1 hal
    rw [bf_eq_ht hsl] at hbfl
    simp only [ht_node] at hD hd2
    rw [rebalance_pos hgt]
    by_cases hln : bf (node lv ll lr lc lh) < 0
    · -- left child right-heavy: double rotation
      obtain ⟨xv, xl, xr, xc, xh, rfl⟩ := bf_neg_right_node hln
      rw [bf_eq_ht hsl] at hln
      obtain ⟨hsxl, hsxr, hxc, hxh⟩ := statsOk_node.1 hslr
      have hhtx : (xh : Int) = 1 + max (ht xl) (ht xr) := statsOk_ht hslr
      obtain ⟨haxl, haxr, hbfx⟩ := avlOk_node.1 halr
      rw [bf_eq_ht hslr] at hbfx
      simp only [ht_node] at hln hbfl hhtl
      rw [if_pos (by rw [bf_eq_ht hsl]; simp only [ht_node]; omega)]
      rw [rotL_node_eq, Option.getD_some,
        update_stats_node xv (update_stats (node lv ll xl lc lh)) xr xc xh,
        rotR_node_eq, Option.getD_some]
      have hsA : statsOk (update_stats (node lv ll xl lc lh)) = true :=
        statsOk_update_stats hsll hsxl
      have hsB : statsOk (update_stats (node v xr r cu hu)) = true :=
        statsOk_update_stats hsxr hsr
      have hhA : ht (update_stats (node lv ll xl lc lh)) = 1 + max (ht ll) (ht xl) :=
        ht_update_stats hsll hsxl
      have hhB : ht (update_stats (node v xr r cu hu)) = 1 + max (ht xr) (ht r) :=
        ht_update_stats hsxr hsr
      have haA : avlOk (update_stats (node lv ll xl lc lh)) = true :=
        avlOk_update_stats hsll hsxl hall haxl (by omega)
      have haB : avlOk (update_stats (node v xr r cu hu)) = true :=
        avlOk_update_stats hsxr hsr haxr har (by omega)
      refine ⟨statsOk_update_stats hsA hsB,
        avlOk_update_stats hsA hsB haA haB (by rw [hhA, hhB]; omega), ?_, ?_, ?_⟩
      · rw [ht_update_stats hsA hsB, hhA, hhB]
        simp only [ht_node]
        omega
      · rw [ht_update_stats hsA hsB, hhA, hhB]
        simp only [ht_node]
        omega
      · intro hcon
        simp only [ht_node] at hcon
        omega
    · -- left child not right-heavy: single right rotation
      rw [bf_eq_ht hsl] at hln
      simp only [ht_node] at hln hbfl hhtl
      rw [if_neg (by rw [bf_eq_ht hsl]; omega)]
      rw [rotR_node_eq, Option.getD_some]
      have hsB : statsOk (update_stats (node v lr r cu hu)) = true :=
        statsOk_update_stats hslr hsr
      have hhB : ht (update_stats (node v lr r cu hu)) = 1 + max (ht lr) (ht r) :=
        ht_update_stats hslr hsr
      have haB : avlOk (update_stats (node v lr r cu hu)) = true :=
        avlOk_update_stats hslr hsr halr har (by omega)
      refine ⟨statsOk_update_stats hsll hsB,
        avlOk_update_stats hsll hsB hall haB (by rw [hhB]; omega), ?_, ?_, ?_⟩
      · rw [ht_update_stats hsll hsB, hhB]
        simp only [ht_node]
        omega
      · rw [ht_update_stats hsll hsB, hhB]
        simp only [ht_node]
        omega
      · intro hcon
        simp only [ht_node] at hcon
        omega
  · by_cases hlt : bf (node v l r cu hu) < -1
    · -- right-heavy by exactly 2
      have hD : ht l - ht r = -2 := by omega
      obtain ⟨rv, rl, rr, rc, rh, rfl⟩ :=
        bf_neg_right_node (show bf (node v l r cu hu) < 0 by omega)
      obtain ⟨hsrl, hsrr, hrc, hrh⟩ := statsOk_node.1 hsr
      have hhtr : (rh : Int) = 1 + max (ht rl) (ht rr) := statsOk_ht hsr
      obtain ⟨harl, harr, hbfr⟩ := avlOk_node.1 har
      rw [bf_eq_ht hsr] at hbfr
      simp only [ht_node] at hD hd2
      rw [rebalance_neg hgt hlt]
      by_cases hrn : 0 < bf (node rv rl rr rc rh)
      · -- right child left-heavy: double rotation
        obtain ⟨xv, xl, xr, xc, xh, rfl⟩ := bf_pos_left_node hrn
        rw [bf_eq_ht hsr] at hrn
        obtain ⟨hsxl, hsxr, hxc, hxh⟩ := statsOk_node.1 hsrl
        have hhtx : (xh : Int) = 1 + max (ht xl) (ht xr) := statsOk_ht hsrl
        obtain ⟨haxl, haxr, hbfx⟩ := avlOk_node.1 harl
        rw [bf_eq_ht hsrl] at hbfx
        simp only [ht_node] at hrn hbfr hhtr
        rw [if_pos (by rw [bf_eq_ht hsr]; simp only [ht_node]; omega)]
        rw [rotR_node_eq, Option.getD_some,
          update_stats_node xv xl (update_stats (node rv xr rr rc rh)) xc xh,
          rotL_node_eq, Option.getD_some]
        have hsA : statsOk (update_stats (node v l xl cu hu)) = true :=
          statsOk_update_stats hsl hsxl
        have hsB : statsOk (update_stats (node rv xr rr rc rh)) = true :=
          statsOk_update_stats hsxr hsrr
        have hhA : ht (update_stats (node v l xl cu hu)) = 1 + max (ht l) (ht xl) :=
          ht_update_stats hsl hsxl
        have hhB : ht (update_stats (node rv xr rr rc rh)) = 1 + max (ht xr) (ht rr) :=
          ht_update_stats hsxr hsrr
        have haA : avlOk (update_stats (node v l xl cu hu)) = true :=
          avlOk_update_stats hsl hsxl hal haxl (by omega)
        have haB : avlOk (update_stats (node rv xr rr rc rh)) = true :=
          avlOk_update_stats hsxr hsrr haxr harr (by omega)
        refine ⟨statsOk_update_stats hsA hsB,
          avlOk_update_stats hsA hsB haA haB (by rw [hhA, hhB]; omega), ?_, ?_, ?_⟩
        · rw [ht_update_stats hsA hsB, hhA, hhB]
          simp only [ht_node]
          omega
        · rw [ht_update_stats hsA hsB, hhA, hhB]
          simp only [ht_node]
          omega
        · intro hcon
          simp only [ht_node] at hcon
          omega
      · -- right child not left-heavy: single left rotation
        rw [bf_eq_ht hsr] at hrn
        simp only [ht_node] at hrn hbfr hhtr
        rw [if_neg (by rw [bf_eq_ht hsr]; omega)]
        rw [rotL_node_eq, Option.getD_some]
        have hsA : statsOk (update_stats (node v l rl cu hu)) = true :=
          statsOk_update_stats hsl hsrl
        have hhA : ht (update_stats (node v l rl cu hu)) = 1 + max (ht l) (ht rl) :=
          ht_update_stats hsl hsrl
        have haA : avlOk (update_stats (node v l rl cu hu)) = true :=
          avlOk_update_stats hsl hsrl hal harl (by omega)
        refine ⟨statsOk_update_stats hsA hsrr,
          avlOk_update_stats hsA hsrr haA harr (by rw [hhA]; omega), ?_, ?_, ?_⟩
        · rw [ht_update_stats hsA hsrr, hhA]
          simp only [ht_node]
          omega
        · rw [ht_update_stats hsA hsrr, hhA]
          simp only [ht_node]
          omega
        · intro hcon
          simp only [ht_node] at hcon
          omega
    · -- already balanced: no rotation
      rw [rebalance_id _ hgt hlt]
      refine ⟨hsu, ?_, ?_, ?_, ?_⟩
      · rw [avlOk_node]
        exact ⟨hal, har, by omega⟩
      · simp only [ht_node]
        omega
      · simp only [ht_node]
        omega
      · intro hcon
        simp only [ht_node]
        omega

/-- `rebalance` applied to a freshly recomputed node, as the insertion
walks do. -/
lemma rebalance_avl {v : α} {l r : CTree α} {c h : Nat}
    (hsl : statsOk l = true) (hsr : statsOk r = true)
    (hal : avlOk l = true) (har : avlOk r = true)
    (hd2 : (ht l - ht r).natAbs ≤ 2) :
    statsOk (rebalance (update_stats (node v l r c h))) = true ∧
    avlOk (rebalance (update_stats (node v l r c h))) = true ∧
    max (ht l) (ht r) ≤ ht (rebalance (update_stats (node v l r c h))) ∧
    ht (rebalance (update_stats (node v l r c h))) ≤ 1 + max (ht l) (ht r) ∧
    ((ht l - ht r).natAbs ≤ 1 →
      ht (rebalance (update_stats (node v l r c h))) = 1 + max (ht l) (ht r)) := by
  have hsu : statsOk (update_stats (node v l r c h)) = true := statsOk_update_stats hsl hsr
  rw [update_stats_node] at hsu ⊢
  exact rebalance_avl_node hsu hal har hd2

/-- Replacing the left child of a balanced node by a subtree that grew by at
most one level, recomputing the statistics and rebalancing, yields an AVL
subtree whose height is the old height or one more. -/
lemma graft_avl_left {v : α} {l' r : CTree α} {c h : Nat} {g : Int}
    (hsl : statsOk l' = true) (hsr : statsOk r = true)
    (hal : avlOk l' = true) (har : avlOk r = true)
    (hbound : (g - ht r).natAbs ≤ 1) (hg1 : g ≤ ht l') (hg2 : ht l' ≤ g + 1) :
    statsOk (rebalance (update_stats (node v l' r c h))) = true ∧
    avlOk (rebalance (update_stats (node v l' r c h))) = true ∧
    1 + max g (ht r) ≤ ht (rebalance (update_stats (node v l' r c h))) ∧
    ht (rebalance (update_stats (node v l' r c h))) ≤ 2 + max g (ht r) := by
  have hres := rebalance_avl (v := v) (c := c) (h := h) hsl hsr hal har (by omega)
  refine ⟨hres.1, hres.2.1, ?_, ?_⟩ <;>
  · by_cases hsmall : (ht l' - ht r).natAbs ≤ 1
    · have hEq := hres.2.2.2.2 hsmall
      omega
    · have h1 := hres.2.2.1
      have h2 := hres.2.2.2.1
      omega

/-- Mirror of `graft_avl_left` for the right child. -/
lemma graft_avl_right {v : α} {l r' : CTree α} {c h : Nat} {g : Int}
    (hsl : statsOk l = true) (hsr : statsOk r' = true)
    (hal : avlOk l = true) (har : avlOk r' = true)
    (hbound : (ht l - g).natAbs ≤ 1) (hg1 : g ≤ ht r') (hg2 : ht r' ≤ g + 1) :
    statsOk (rebalance (update_stats (node v l r' c h))) = true ∧
    avlOk (rebalance (update_stats (node v l r' c h))) = true ∧
    1 + max (ht l) g ≤ ht (rebalance (update_stats (node v l r' c h))) ∧
    ht (rebalance (update_stats (node v l r' c h))) ≤ 2 + max (ht l) g := by
  have hres := rebalance_avl (v := v) (c := c) (h := h) hsl hsr hal har (by omega)
  refine ⟨hres.1, hres.2.1, ?_, ?_⟩ <;>
  · by_cases hsmall : (ht l - ht r').natAbs ≤ 1
    · have hEq := hres.2.2.2.2 hsmall
      omega
    · have h1 := hres.2.2.1
      have h2 := hres.2.2.2.1
      omega

/-- The append walk preserves the AVL invariant and grows the height by at
most one (the appended node is a fresh leaf). -/
lemma walkApp_avl {new : CTree α} (hns : statsOk new = true) (hna : avlOk new = true)
    (hnh : ht new = 0) :
    ∀ {t : CTree α}, t ≠ nil → statsOk t = true → avlOk t = true →
      avlOk (walkApp rebalance new t) = true ∧
      ht t ≤ ht (walkApp rebalance new t) ∧
      ht (walkApp rebalance new t) ≤ ht t + 1 := by
  intro t
  induction t with
  | nil => intro hne; exact absurd rfl hne
  | node v l r c h ihl ihr =>
    intro _ hs ha
    obtain ⟨hsl, hsr, hc, hh⟩ := statsOk_node.1 hs
    obtain ⟨hal, har, hbf⟩ := avlOk_node.1 ha
    rw [bf_eq_ht hs] at hbf
    have hth : (h : Int) = 1 + max (ht l) (ht r) := statsOk_ht hs
    have hn0 : ht (nil : CTree α) = -1 := ht_nil
    cases r with
    | nil =>
      simp only [walkApp]
      have hg := graft_avl_right (v := v) (c := c) (h := h) (g := ht (nil : CTree α))
        hsl hns hal hna hbf (by omega) (by omega)
      refine ⟨hg.2.1, ?_, ?_⟩ <;> simp only [ht_node] <;> omega
    | node rv rl rr rc rh =>
      have ihr2 := ihr (by simp) hsr har
      have hw := walkApp_spec hns (t := node rv rl rr rc rh) (by simp) hsr
      simp only [walkApp]
      have hg := graft_avl_right (v := v) (c := c) (h := h) (g := ht (node rv rl rr rc rh))
        hsl hw.1 hal ihr2.1 hbf ihr2.2.1 ihr2.2.2
      refine ⟨hg.2.1, ?_, ?_⟩ <;> simp only [ht_node] <;> omega

/-- The order-statistics insertion walk preserves the AVL invariant and
grows the height by at most one. -/
lemma insertAt_avl {new : CTree α} (hns : statsOk new = true) (hna : avlOk new = true)
    (hnh : ht new = 0) :
    ∀ {t : CTree α} {i : Nat}, statsOk t = true → avlOk t = true → i < tcount t →
      avlOk (insertAt new t i) = true ∧
      ht t ≤ ht (insertAt new t i) ∧
      ht (insertAt new t i) ≤ ht t + 1 := by
  intro t
  induction t with
  | nil => intro i _ _ hi; simp at hi
  | node v l r c h ihl ihr =>
    intro i hs ha hi
    obtain ⟨hsl, hsr, hc, hh⟩ := statsOk_node.1 hs
    obtain ⟨hal, har, hbf⟩ := avlOk_node.1 ha
    rw [bf_eq_ht hs] at hbf
    have hth : (h : Int) = 1 + max (ht l) (ht r) := statsOk_ht hs
    have hn0 : ht (nil : CTree α) = -1 := ht_nil
    rw [insertAt_node]
    split_ifs with h1 h2
    · -- descend left
      have ihl2 := ihl hsl hal h1
      have hspec := insertAt_spec hns hsl h1
      have hg := graft_avl_left (v := v) (c := c) (h := h) (g := ht l)
        hspec.1 hsr ihl2.1 har hbf ihl2.2.1 ihl2.2.2
      refine ⟨hg.2.1, ?_, ?_⟩ <;> simp only [ht_node] <;> omega
    · -- stop: insert before this node
      cases l with
      | nil =>
        simp only [insBefore]
        have hg := graft_avl_left (v := v) (c := c) (h := h) (g := ht (nil : CTree α))
          hns hsr hna har hbf (by omega) (by omega)
        refine ⟨hg.2.1, ?_, ?_⟩ <;> simp only [ht_node] <;> omega
      | node lv ll lr lc lh =>
        simp only [insBefore]
        have hwavl := walkApp_avl hns hna hnh (t := node lv ll lr lc lh) (by simp) hsl hal
        have hw := walkApp_spec hns (t := node lv ll lr lc lh) (by simp) hsl
        have hg := graft_avl_left (v := v) (c := c) (h := h)
          (g := ht (node lv ll lr lc lh))
          hw.1 hsr hwavl.1 har hbf hwavl.2.1 hwavl.2.2
        refine ⟨hg.2.1, ?_, ?_⟩ <;> simp only [ht_node] <;> omega
    · -- descend right
      cases r with
      | nil =>
        exfalso
        simp at hc hi
        omega
      | node rv rl rr rc rh =>
        have hir : i - tcount l - 1 < tcount (node rv rl rr rc rh) := by
          simp at hc hi ⊢
          omega
        have ihr2 := ihr hsr har hir
        have hspec := insertAt_spec hns hsr hir
        have hg := graft_avl_right (v := v) (c := c) (h := h)
          (g := ht (node rv rl rr rc rh))
          hsl hspec.1 hal ihr2.1 hbf ihr2.2.1 ihr2.2.2
        refine ⟨hg.2.1, ?_, ?_⟩ <;> simp only [ht_node] <;> omega

/-- A successful `insert` preserves consistent caches and the AVL
invariant. -/
lemma insertO_avl {t t' : CTree α} {i : Nat} {v : α}
    (hs : statsOk t = true) (ha : avlOk t = true) (hins : insertO t i v = some t') :
    statsOk t' = true ∧ avlOk t' = true := by
  simp only [insertO] at hins
  split_ifs at hins with h0 h1 h2
  · cases hins
    exact ⟨by simp, by simp [avlOk, leaf, bf]⟩
  · cases hins
    refine ⟨(insertAt_spec (by simp) hs h1).1, ?_⟩
    exact (insertAt_avl (by simp) (by simp [avlOk, leaf, bf]) (by simp [leaf, ht]) hs ha h1).1
  · cases hins
    have htne : t ≠ nil := by
      intro hnil
      subst hnil
      simp [tlen] at h2
      exact h0 ⟨rfl, by omega⟩
    refine ⟨(walkApp_spec (by simp) htne hs).1, ?_⟩
    exact (walkApp_avl (by simp) (by simp [avlOk, leaf, bf]) (by simp [leaf, ht]) htne hs ha).1

/-- Every tree built by `new` and successful `insert`s has consistent
caches and satisfies the AVL invariant. -/
lemma reachableIns_inv {t : CTree α} (hr : ReachableIns t) :
    statsOk t = true ∧ avlOk t = true := by
  induction hr with
  | new => exact ⟨rfl, rfl⟩
  | insert t i v t' _ hins ih => exact insertO_avl ih.1 ih.2 hins

/-! ### Perfect blocks and the build spine -/

lemma eq_nil_of_ht_neg {t : CTree α} (hneg : ht t < 0) : t = nil := by
  cases t with
  | nil => rfl
  | node v l r c h =>
    exfalso
    simp [ht] at hneg
    omega

lemma ht_eq_theight {t : CTree α} (hne : t ≠ nil) : ht t = (theight t : Int) := by
  cases t with
  | nil => exact absurd rfl hne
  | node v l r c h => rfl

@[simp] lemma bsum_nil : bsum ([] : List Nat) = 0 := rfl

@[simp] lemma bsum_cons (b : Nat) (bs : List Nat) : bsum (b :: bs) = 2 ^ b + bsum bs := by
  simp [bsum]

lemma perfect_spec {t : CTree α} {k : Nat} (hp : Perfect t k) :
    statsOk t = true ∧ tcount t + 1 = 2 ^ k ∧ ht t = (k : Int) - 1 := by
  induction hp with
  | nil => simp
  | node v hl hr ihl ihr =>
    rename_i l r k
    obtain ⟨hsl, hcl, hhl⟩ := ihl
    obtain ⟨hsr, hcr, hhr⟩ := ihr
    have hp2 : 2 ^ (k + 1) = 2 * 2 ^ k := by rw [pow_succ]; ring
    have h1 : (1 : Nat) ≤ 2 ^ k := Nat.one_le_two_pow
    refine ⟨?_, ?_, ?_⟩
    · rw [statsOk_node]
      refine ⟨hsl, hsr, by omega, ?_⟩
      cases k with
      | zero =>
        have hln : l = nil := eq_nil_of_ht_neg (by omega)
        have hrn : r = nil := eq_nil_of_ht_neg (by omega)
        subst hln
        subst hrn
        simp
      | succ j =>
        have hln : l ≠ nil := by
          intro hn
          subst hn
          rw [ht_nil] at hhl
          omega
        have hrn : r ≠ nil := by
          intro hn
          subst hn
          rw [ht_nil] at hhr
          omega
        have htl : (theight l : Int) = j := by rw [← ht_eq_theight hln]; omega
        have htr : (theight r : Int) = j := by rw [← ht_eq_theight hrn]; omega
        have h4 : (1 : Nat) ≤ 2 ^ j := Nat.one_le_two_pow
        have hp3 : 2 ^ (j + 1 + 1) = 2 * 2 ^ (j + 1) := by rw [pow_succ]; ring
        have hp4 : 2 ^ (j + 1) = 2 * 2 ^ j := by rw [pow_succ]; ring
        rw [if_pos (by omega)]
        omega
    · simp only [tcount_node]
      omega
    · simp only [ht_node]
      push_cast
      omega

lemma spineT_spec {t : CTree α} {bs : List Nat} (hsp : SpineT t bs) :
    statsOk t = true ∧ tcount t + 1 = bsum bs ∧ ∀ b ∈ bs, (b : Int) - 1 ≤ ht t := by
  induction hsp with
  | base hp =>
    obtain ⟨hs, hc, hh⟩ := perfect_spec hp
    refine ⟨hs, by rw [bsum_cons, bsum_nil]; omega, ?_⟩
    intro b hb
    simp at hb
    subst hb
    omega
  | cons v hl hr hgt hc hh ih =>
    rename_i l r c h e bs
    obtain ⟨ihs, ihc, ihh⟩ := ih
    obtain ⟨hsr, hcr, hhr⟩ := perfect_spec hr
    have hbne : bs ≠ [] := by
      intro hn
      subst hn
      rw [bsum_nil] at ihc
      omega
    obtain ⟨b0, bs', rfl⟩ := List.exists_cons_of_ne_nil hbne
    have hb0 : e < b0 := hgt b0 (by simp)
    have hhtl : (b0 : Int) - 1 ≤ ht l := ihh b0 (by simp)
    have hlne : l ≠ nil := by
      intro hn
      subst hn
      rw [ht_nil] at hhtl
      omega
    have htleq : ht l = (theight l : Int) := ht_eq_theight hlne
    have hlpos : 1 ≤ tcount l := by
      cases l with
      | nil => exact absurd rfl hlne
      | node lv ll lr lc lh => exact statsOk_tcount_pos ihs
    have h2e : (1 : Nat) ≤ 2 ^ e := Nat.one_le_two_pow
    have hthr : (theight r : Int) ≤ theight l := by
      cases e with
      | zero =>
        cases hr
        simp
      | succ j =>
        have hrne : r ≠ nil := by
          intro hn
          subst hn
          rw [ht_nil] at hhr
          omega
        rw [← ht_eq_theight hrne]
        omega
    refine ⟨?_, ?_, ?_⟩
    · rw [statsOk_node]
      refine ⟨ihs, hsr, by omega, ?_⟩
      rw [if_pos (by omega)]
      omega
    · simp only [tcount_node, bsum_cons]
      simp only [bsum_cons] at ihc
      omega
    · intro b hb
      have hhtt : ht (node v l r c h) = (theight l : Int) + 1 := by
        simp [ht, hh]
      rcases List.mem_cons.1 hb with hbe | hbs
      · subst hbe
        rw [hhtt]
        omega
      · have := ihh b hbs
        rw [hhtt]
        omega

/-- Two equal-rank perfect subtrees under a stats-consistent root form the
next perfect block: this is how a carry rotation completes a merge. -/
lemma perfect_node_of_statsOk {x : α} {l r : CTree α} {c h f : Nat}
    (hl : Perfect l f) (hr : Perfect r f)
    (hs : statsOk (node x l r c h) = true) :
    Perfect (node x l r c h) (f + 1) := by
  obtain ⟨hsl, hcl, hhl⟩ := perfect_spec hl
  obtain ⟨hsr, hcr, hhr⟩ := perfect_spec hr
  obtain ⟨_, _, hc, hh⟩ := statsOk_node.1 hs
  have hp2 : 2 ^ (f + 1) = 2 * 2 ^ f := by rw [pow_succ]; ring
  have h1 : (1 : Nat) ≤ 2 ^ f := Nat.one_le_two_pow
  have hc2 : c = 2 ^ (f + 1) - 1 := by omega
  have hh2 : h = f := by
    cases f with
    | zero =>
      have hln : l = nil := eq_nil_of_ht_neg (by omega)
      have hrn : r = nil := eq_nil_of_ht_neg (by omega)
      subst hln
      subst hrn
      simp at hc
      rw [if_neg (by omega)] at hh
      simp at hh
      omega
    | succ j =>
      have hln : l ≠ nil := by
        intro hn
        subst hn
        rw [ht_nil] at hhl
        omega
      have hrn : r ≠ nil := by
        intro hn
        subst hn
        rw [ht_nil] at hhr
        omega
      have htl : (theight l : Int) = j := by rw [← ht_eq_theight hln]; omega
      have htr : (theight r : Int) = j := by rw [← ht_eq_theight hrn]; omega
      have h4 : (1 : Nat) ≤ 2 ^ j := Nat.one_le_two_pow
      have hp4 : 2 ^ (j + 1) = 2 * 2 ^ j := by rw [pow_succ]; ring
      rw [if_pos (by omega)] at hh
      omega
  subst hc2
  subst hh2
  exact Perfect.node x hl hr

/-- A spine, a lower-rank perfect right block and consistent caches form the
next spine node. -/
lemma spineT_cons_of_statsOk {x : α} {l r : CTree α} {c h e : Nat} {bs : List Nat}
    (hl : SpineT l bs) (hr : Perfect r e) (hgt : ∀ b ∈ bs, e < b)
    (hs : statsOk (node x l r c h) = true) :
    SpineT (node x l r c h) (e :: bs) := by
  obtain ⟨ihs, ihc, ihh⟩ := spineT_spec hl
  obtain ⟨hsr, hcr, hhr⟩ := perfect_spec hr
  obtain ⟨_, _, hc, hh⟩ := statsOk_node.1 hs
  have h2e : (1 : Nat) ≤ 2 ^ e := Nat.one_le_two_pow
  have hbne : bs ≠ [] := by
    intro hn
    subst hn
    rw [bsum_nil] at ihc
    omega
  obtain ⟨b0, bs', rfl⟩ := List.exists_cons_of_ne_nil hbne
  have hb0 : e < b0 := hgt b0 (by simp)
  have hhtl : (b0 : Int) - 1 ≤ ht l := ihh b0 (by simp)
  have hlne : l ≠ nil := by
    intro hn
    subst hn
    rw [ht_nil] at hhtl
    omega
  have htleq : ht l = (theight l : Int) := ht_eq_theight hlne
  have hlpos : 1 ≤ tcount l := by
    cases l with
    | nil => exact absurd rfl hlne
    | node lv ll lr lc lh => exact statsOk_tcount_pos ihs
  have hthr : (theight r : Int) ≤ theight l := by
    cases e with
    | zero =>
      cases hr
      simp
    | succ j =>
      have hrne : r ≠ nil := by
        intro hn
        subst hn
        rw [ht_nil] at hhr
        omega
      rw [← ht_eq_theight hrne]
      omega
  have hc2 : c = tcount l + 2 ^ e := by omega
  have hh2 : h = theight l + 1 := by
    rw [if_pos (by omega)] at hh
    omega
  exact SpineT.cons x hl hr hgt hc2 hh2

/-! ### Bit arithmetic: powers of two, masks, carries -/

lemma odd_and_pred (v : Nat) (hodd : v % 2 = 1) : v &&& (v - 1) = v - 1 := by
  apply Nat.eq_of_testBit_eq
  intro i
  rw [Nat.testBit_and]
  cases i with
  | zero =>
    rw [Nat.testBit_zero, Nat.testBit_zero]
    have : (v - 1) % 2 = 0 := by omega
    simp [this]
  | succ j =>
    rw [Nat.testBit_succ, Nat.testBit_succ]
    have : (v - 1) / 2 = v / 2 := by omega
    rw [this]
    cases Nat.testBit (v / 2) j <;> simp

lemma two_mul_and_pred (w : Nat) (hw : 1 ≤ w) :
    (2 * w) &&& (2 * w - 1) = 2 * (w &&& (w - 1)) := by
  apply Nat.eq_of_testBit_eq
  intro i
  rw [Nat.testBit_and]
  cases i with
  | zero =>
    rw [Nat.testBit_zero, Nat.testBit_zero, Nat.testBit_zero]
    have h1 : (2 * w) % 2 = 0 := by omega
    have h2 : (2 * (w &&& (w - 1))) % 2 = 0 := by omega
    simp [h1, h2]
  | succ j =>
    rw [Nat.testBit_succ, Nat.testBit_succ, Nat.testBit_succ]
    have h1 : 2 * w / 2 = w := by omega
    have h2 : (2 * w - 1) / 2 = w - 1 := by omega
    have h3 : 2 * (w &&& (w - 1)) / 2 = w &&& (w - 1) := by omega
    rw [h1, h2, h3, Nat.testBit_and]

lemma pow_two_and_pred (k : Nat) : 2 ^ k &&& (2 ^ k - 1) = 0 := by
  rw [Nat.and_pow_two_sub_one_eq_mod]
  exact Nat.mod_self _

/-- `is_power` answers exactly the powers of two, on its whole domain. -/
lemma is_power_iff (v : Nat) : is_power v = true ↔ ∃ k, v = 2 ^ k := by
  constructor
  · intro hp
    induction v using Nat.strong_induction_on with
    | _ v ih =>
      by_cases h0 : v = 0
      · subst h0
        simp [is_power] at hp
      · simp only [is_power, if_neg h0] at hp
        have hz : v &&& (v - 1) = 0 := by simpa using hp
        have hvpos : 0 < v := by omega
        rcases Nat.even_or_odd v with heven | hodd
        · obtain ⟨w, hvw⟩ := heven
          have hvw2 : v = 2 * w := by omega
          subst hvw2
          have hw1 : 1 ≤ w := by omega
          rw [two_mul_and_pred w hw1] at hz
          have hz2 : w &&& (w - 1) = 0 := by omega
          have hwp : is_power w = true := by
            simp only [is_power, if_neg (by omega : ¬ w = 0)]
            simpa using hz2
          obtain ⟨k, rfl⟩ := ih w (by omega) hwp
          exact ⟨k + 1, by rw [pow_succ]; ring⟩
        · have ho : v % 2 = 1 := Nat.odd_iff.1 hodd
          rw [odd_and_pred v ho] at hz
          exact ⟨0, by omega⟩
  · rintro ⟨k, rfl⟩
    have hk : (1 : Nat) ≤ 2 ^ k := Nat.one_le_two_pow
    simp only [is_power, if_neg (by omega : ¬ (2 : Nat) ^ k = 0)]
    simpa using pow_two_and_pred k

lemma two_pow_sub_one_mod {B m : Nat} (hm : m ≤ B) :
    (2 ^ B - 1) % 2 ^ m = 2 ^ m - 1 := by
  have h2 : 2 ^ m * 2 ^ (B - m) = 2 ^ B := by
    rw [← pow_add]
    congr 1
    omega
  have h1m : (1 : Nat) ≤ 2 ^ m := Nat.one_le_two_pow
  have h1b : (1 : Nat) ≤ 2 ^ (B - m) := Nat.one_le_two_pow
  obtain ⟨c, hc⟩ : ∃ c, 2 ^ (B - m) = c + 1 := ⟨2 ^ (B - m) - 1, by omega⟩
  rw [hc] at h2
  have hprod : 2 ^ m * (c + 1) = 2 ^ m * c + 2 ^ m := by ring
  have hx : 2 ^ B - 1 = 2 ^ m * c + (2 ^ m - 1) := by omega
  rw [hx, Nat.mul_add_mod]
  exact Nat.mod_eq_of_lt (by omega)

lemma bsum_dvd {m : Nat} : ∀ {bs : List Nat}, (∀ b ∈ bs, m ≤ b) → 2 ^ m ∣ bsum bs := by
  intro bs
  induction bs with
  | nil => intro _; simp
  | cons b bs ih =>
    intro hall
    rw [bsum_cons]
    exact Nat.dvd_add (pow_dvd_pow 2 (hall b (by simp))) (ih (fun b' hb' => hall b' (by simp [hb'])))

/-- The carry loop tests: `rc = 2^D - 1 + T` with `2^(D+1) ∣ T` has its low
bits all ones up to exactly `D`. -/
lemma trailing_ones_test {D T : Nat} (hdvd : 2 ^ (D + 1) ∣ T) (g : Nat) :
    ((2 ^ D - 1 + T) % 2 ^ (g + 1) = 2 ^ (g + 1) - 1) ↔ g < D := by
  have h1d : (1 : Nat) ≤ 2 ^ D := Nat.one_le_two_pow
  constructor
  · intro heq
    by_contra hge
    have hDg : D ≤ g := by omega
    have hdvd2 : 2 ^ (D + 1) ∣ 2 ^ (g + 1) := pow_dvd_pow 2 (by omega)
    have hmod : (2 ^ D - 1 + T) % 2 ^ (D + 1) = 2 ^ D - 1 := by
      obtain ⟨q, rfl⟩ := hdvd
      rw [Nat.add_mul_mod_self_left]
      exact Nat.mod_eq_of_lt (by
        have : 2 ^ (D + 1) = 2 * 2 ^ D := by rw [pow_succ]; ring
        omega)
    have hmod2 : (2 ^ D - 1 + T) % 2 ^ (D + 1) = 2 ^ (D + 1) - 1 := by
      rw [← Nat.mod_mod_of_dvd _ hdvd2, heq]
      exact two_pow_sub_one_mod (by omega)
    have : 2 ^ (D + 1) = 2 * 2 ^ D := by rw [pow_succ]; ring
    omega
  · intro hlt
    obtain ⟨q, rfl⟩ := hdvd
    have hdvd3 : 2 ^ (g + 1) ∣ 2 ^ (D + 1) * q := Dvd.dvd.mul_right (pow_dvd_pow 2 (by omega)) q
    obtain ⟨q2, hq2⟩ := hdvd3
    rw [hq2, Nat.add_mul_mod_self_left]
    exact two_pow_sub_one_mod (by omega)

/-! ### The carry loop of from_iter -/

lemma spineT_nil_elim {t : CTree α} (hsp : SpineT t []) : False := by
  have h := (spineT_spec hsp).2.1
  rw [bsum_nil] at h
  omega

lemma spineT_cons_elim {t : CTree α} {e : Nat} {bs : List Nat}
    (hsp : SpineT t (e :: bs)) (hbs : bs ≠ []) :
    ∃ v l r c h, t = node v l r c h ∧ SpineT l bs ∧ Perfect r e ∧
      (∀ b ∈ bs, e < b) ∧ c = tcount l + 2 ^ e ∧ h = theight l + 1 := by
  cases hsp with
  | base hp => exact absurd rfl hbs
  | cons v hl hr hgt hc hh => exact ⟨v, _, _, _, _, rfl, hl, hr, hgt, hc, hh⟩

/-- The carry loop of `from_iter` (count.rs 160-165): starting from a node
whose left subtree is a spine for `range' f d ++ bsTail` and whose right
subtree is a fresh perfect block of rank `f`, the loop performs exactly `d`
right rotations; the new block either merges with a lone terminal bit into a
single perfect block or is prepended to the remaining tail bits. -/
lemma carry_run (d : Nat) : ∀ {f : Nat} {bsTail : List Nat} {l r : CTree α} (x : α)
    {c h rc : Nat},
    SpineT l (List.range' f d ++ bsTail) → Perfect r f →
    statsOk (node x l r c h) = true →
    (∀ g, (rc % 2 ^ (g + 1) = 2 ^ (g + 1) - 1) ↔ g < f + d) →
    (bsTail = [f + d] ∨ (bsTail ≠ [] ∧ ∀ b ∈ bsTail, f + d < b)) →
    ∃ w bsOut, carryRots rc (2 ^ (f + 1) - 1) (node x l r c h) = some w ∧
      SpineT w bsOut ∧ toList w = toList (node x l r c h) ∧
      ((bsTail = [f + d] ∧ bsOut = [f + d + 1]) ∨
        ((∀ b ∈ bsTail, f + d < b) ∧ bsOut = (f + d) :: bsTail)) := by
  induction d with
  | zero =>
    intro f bsTail l r x c h rc hsp hperf hs htest hterm
    have hfalse : ¬ (rc &&& (2 ^ (f + 1) - 1) = 2 ^ (f + 1) - 1) := by
      rw [Nat.and_pow_two_sub_one_eq_mod, htest f]
      omega
    simp only [List.range'] at hsp
    rw [List.nil_append] at hsp
    rcases hterm with h1 | h2
    · subst h1
      have hlperf : Perfect l (f + 0) := by
        cases hsp with
        | base hp => exact hp
        | cons v hl hr hgt hc hh => exact (spineT_nil_elim hl).elim
      refine ⟨node x l r c h, [f + 0 + 1], ?_, ?_, rfl, Or.inl ⟨rfl, rfl⟩⟩
      · rw [carryRots, dif_neg hfalse]
      · exact SpineT.base (perfect_node_of_statsOk hlperf hperf hs)
    · refine ⟨node x l r c h, (f + 0) :: bsTail, ?_, ?_, rfl, Or.inr ⟨h2.2, rfl⟩⟩
      · rw [carryRots, dif_neg hfalse]
      · exact spineT_cons_of_statsOk hsp hperf (fun b hb => h2.2 b hb) hs
  | succ d2 ih =>
    intro f bsTail l r x c h rc hsp hperf hs htest hterm
    have htrue : rc &&& (2 ^ (f + 1) - 1) = 2 ^ (f + 1) - 1 := by
      rw [Nat.and_pow_two_sub_one_eq_mod, htest f]
      omega
    rw [List.range'_succ, List.cons_append] at hsp
    have hbsne : bsTail ≠ [] := by
      rcases hterm with h1 | h1
      · subst h1; simp
      · exact h1.1
    obtain ⟨v2, L2, R2, C2, H2, heq, hl2, hr2, hgt2, _, _⟩ :=
      spineT_cons_elim hsp (by
        intro hN
        exact hbsne (List.append_eq_nil.1 hN).2)
    subst heq
    have hsl : statsOk (node v2 L2 R2 C2 H2) = true := (statsOk_node.1 hs).1
    have hsr : statsOk r = true := (statsOk_node.1 hs).2.1
    have hsL2 : statsOk L2 = true := (statsOk_node.1 hsl).1
    have hsR2 : statsOk R2 = true := (statsOk_node.1 hsl).2.1
    have hsInner : statsOk (update_stats (node x R2 r c h)) = true :=
      statsOk_update_stats hsR2 hsr
    have hBperf : Perfect (update_stats (node x R2 r c h)) (f + 1) := by
      rw [update_stats_node]
      exact perfect_node_of_statsOk hr2 hperf (by rw [← update_stats_node]; exact hsInner)
    have hsOuter : statsOk (update_stats (node v2 L2 (update_stats (node x R2 r c h)) C2 H2)) = true :=
      statsOk_update_stats hsL2 hsInner
    rw [update_stats_node] at hsOuter
    have htest2 : ∀ g, (rc % 2 ^ (g + 1) = 2 ^ (g + 1) - 1) ↔ g < (f + 1) + d2 := by
      intro g
      rw [htest g]
      omega
    have hterm2 : bsTail = [(f + 1) + d2] ∨ (bsTail ≠ [] ∧ ∀ b ∈ bsTail, (f + 1) + d2 < b) := by
      have he : f + (d2 + 1) = (f + 1) + d2 := by omega
      rw [he] at hterm
      exact hterm
    obtain ⟨w, bsOut, hrun, hspw, hlistw, hcase⟩ := ih v2 hl2 hBperf hsOuter htest2 hterm2
    have hrp : 2 * (2 ^ (f + 1) - 1) + 1 = 2 ^ (f + 1 + 1) - 1 := by
      have hp2 : (2 : Nat) ^ (f + 1 + 1) = 2 * 2 ^ (f + 1) := by rw [pow_succ]; ring
      have hp1 : (1 : Nat) ≤ 2 ^ (f + 1) := Nat.one_le_two_pow
      omega
    refine ⟨w, bsOut, ?_, hspw, ?_, ?_⟩
    · rw [carryRots, dif_pos htrue, rotR_node_eq, hrp, update_stats_node]
      exact hrun
    · rw [hlistw]
      simp [List.append_assoc]
    · have he : f + (d2 + 1) = (f + 1) + d2 := by omega
      rw [he]
      exact hcase

lemma bsum_append : ∀ (l1 l2 : List Nat), bsum (l1 ++ l2) = bsum l1 + bsum l2 := by
  intro l1 l2
  induction l1 with
  | nil => simp [bsum_nil]
  | cons b rest ih => rw [List.cons_append, bsum_cons, bsum_cons, ih]; omega

lemma bsum_range' : ∀ (d g : Nat), bsum (List.range' g d) = 2 ^ g * (2 ^ d - 1) := by
  intro d
  induction d with
  | zero => intro g; simp [bsum_nil]
  | succ d ih =>
    intro g
    rw [List.range'_succ, bsum_cons, ih (g + 1)]
    have h3 : (1 : Nat) ≤ 2 ^ d := Nat.one_le_two_pow
    obtain ⟨b2, hb2⟩ : ∃ b2, 2 ^ d = b2 + 1 := ⟨2 ^ d - 1, by omega⟩
    rw [pow_succ 2 g, pow_succ 2 d, hb2]
    have h4 : (b2 + 1) * 2 - 1 = 2 * b2 + 1 := by omega
    have h5 : b2 + 1 - 1 = b2 := by omega
    rw [h4, h5]
    ring

lemma split_run : ∀ {bs : List Nat} {g : Nat}, List.Pairwise (· < ·) bs →
    (∀ b ∈ bs, g ≤ b) →
    ∃ d bsTail, bs = List.range' g d ++ bsTail ∧ (∀ b ∈ bsTail, g + d < b) := by
  intro bs
  induction bs with
  | nil => intro g _ _; exact ⟨0, [], by simp, by simp⟩
  | cons b rest ih =>
    intro g hsort hge
    rcases eq_or_ne b g with hbg | hbg
    · subst hbg
      have hsort2 : List.Pairwise (· < ·) rest := (List.pairwise_cons.1 hsort).2
      have hgt : ∀ b2 ∈ rest, b + 1 ≤ b2 := by
        intro b2 hb2
        exact (List.pairwise_cons.1 hsort).1 b2 hb2
      obtain ⟨d, bsTail, heq, hall⟩ := ih hsort2 hgt
      refine ⟨d + 1, bsTail, ?_, ?_⟩
      · rw [List.range'_succ, List.cons_append, ← heq]
      · intro b2 hb2
        have := hall b2 hb2
        omega
    · have hgb : g < b := by
        have := hge b (by simp)
        omega
      refine ⟨0, b :: rest, by simp, ?_⟩
      intro b2 hb2
      rcases List.mem_cons.1 hb2 with h1 | h1
      · omega
      · have h2 := (List.pairwise_cons.1 hsort).1 b2 h1
        omega

/-- One incremental step of `from_iter` (count.rs 157-172): wrapping a spine
with a fresh root holding the next item and running the carry loop yields a
spine again, with the new item appended in order. -/
lemma buildStep_spine {t : CTree α} {bs : List Nat} {cnt : Nat} (x : α)
    (hsp : SpineT t bs) (hsort : List.Pairwise (· < ·) bs)
    (hcnt : cnt = tcount t + 1) :
    ∃ w bsOut, buildStep t cnt x = some w ∧ SpineT w bsOut ∧
      List.Pairwise (· < ·) bsOut ∧ toList w = toList t ++ [x] ∧
      tcount w = cnt := by
  obtain ⟨hst, hbsum, _⟩ := spineT_spec hsp
  obtain ⟨d, bsTail, hbseq, hall⟩ := split_run hsort (fun b _ => Nat.zero_le b)
  subst hbseq
  simp only [Nat.zero_add] at hall
  have hbsA : bsum (List.range' 0 d ++ bsTail) = 2 ^ d - 1 + bsum bsTail := by
    rw [bsum_append]
    have hr := bsum_range' d 0
    simp only [pow_zero, one_mul] at hr
    omega
  have h2d : (1 : Nat) ≤ 2 ^ d := Nat.one_le_two_pow
  have hs0 : statsOk (update_stats (node x t nil 1 0)) = true :=
    statsOk_update_stats hst (by simp)
  rw [update_stats_node] at hs0
  cases bsTail with
  | nil =>
    have hcntA : cnt = 2 ^ d - 1 := by
      rw [bsum_nil] at hbsA
      omega
    obtain ⟨d2, rfl⟩ : ∃ d2, d = d2 + 1 := by
      refine ⟨d - 1, ?_⟩
      by_contra hd0
      have : d = 0 := by omega
      subst this
      simp at hcntA
      omega
    have h2d2 : (2 : Nat) ^ (d2 + 1) = 2 * 2 ^ d2 := by rw [pow_succ]; ring
    have h1d2 : (1 : Nat) ≤ 2 ^ d2 := Nat.one_le_two_pow
    have hip : is_power (cnt + 1) = true := (is_power_iff _).2 ⟨d2 + 1, by omega⟩
    have hrc : cnt >>> 1 = 2 ^ d2 - 1 := by
      have hsr : cnt >>> 1 = cnt / 2 := by
        rw [Nat.shiftRight_succ, Nat.shiftRight_zero]
      omega
    rw [List.append_nil, List.range'_concat] at hsp
    have he1 : 0 + 1 * d2 = d2 := by omega
    rw [he1] at hsp
    have htest : ∀ g, ((cnt >>> 1) % 2 ^ (g + 1) = 2 ^ (g + 1) - 1) ↔ g < 0 + d2 := by
      intro g
      rw [hrc]
      have h := trailing_ones_test (dvd_zero (2 ^ (d2 + 1))) g
      simpa using h
    have hterm : [d2] = [0 + d2] ∨ (([d2] : List Nat) ≠ [] ∧ ∀ b ∈ [d2], 0 + d2 < b) :=
      Or.inl (by simp)
    obtain ⟨w, bsOut, hrun, hspw, hlistw, hcase⟩ :=
      carry_run d2 x hsp Perfect.nil hs0 htest hterm
    rw [show (2 : Nat) ^ (0 + 1) - 1 = 1 from rfl] at hrun
    refine ⟨w, bsOut, ?_, hspw, ?_, ?_, ?_⟩
    · rw [show buildStep t cnt x = carryRots (cnt >>> 1) 1 (update_stats (node x t nil 1 0))
          from by simp [buildStep, hip]]
      rw [update_stats_node, hrc]
      rw [hrc] at hrun
      exact hrun
    · rcases hcase with ⟨_, hbsOut⟩ | ⟨hgt2, _⟩
      · subst hbsOut
        simp
      · exact absurd (hgt2 d2 (by simp)) (by omega)
    · rw [hlistw]
      simp
    · have hcw := (spineT_spec hspw).2.1
      rcases hcase with ⟨_, hbsOut⟩ | ⟨hgt2, _⟩
      · subst hbsOut
        rw [bsum_cons, bsum_nil] at hcw
        have he2 : 0 + d2 + 1 = d2 + 1 := by omega
        rw [he2] at hcw
        omega
      · exact absurd (hgt2 d2 (by simp)) (by omega)
  | cons b0 rest =>
    have hb0 : d < b0 := hall b0 (by simp)
    have hTpos : 1 ≤ bsum (b0 :: rest) := by
      rw [bsum_cons]
      have : (1 : Nat) ≤ 2 ^ b0 := Nat.one_le_two_pow
      omega
    have hdvd : 2 ^ (d + 1) ∣ bsum (b0 :: rest) :=
      bsum_dvd (fun b hb => by have := hall b hb; omega)
    have hcntB : cnt = 2 ^ d - 1 + bsum (b0 :: rest) := by omega
    have h2d1 : (2 : Nat) ^ (d + 1) = 2 * 2 ^ d := by rw [pow_succ]; ring
    have hnp : is_power (cnt + 1) = false := by
      cases hip : is_power (cnt + 1) with
      | false => rfl
      | true =>
        exfalso
        obtain ⟨k, hk⟩ := (is_power_iff _).1 hip
        have hdk : d < k := by
          by_contra hkd
          have hle : (2 : Nat) ^ k ≤ 2 ^ d := Nat.pow_le_pow_right (by omega) (by omega)
          omega
        have hdvd2 : 2 ^ (d + 1) ∣ 2 ^ k := pow_dvd_pow 2 (by omega)
        obtain ⟨q1, hq1⟩ := hdvd2
        obtain ⟨q2, hq2⟩ := hdvd
        have hm1 : (2 : Nat) ^ k % 2 ^ (d + 1) = 0 := by
          rw [hq1]
          exact Nat.mul_mod_right _ _
        have hm3 : (2 ^ d + bsum (b0 :: rest)) % 2 ^ (d + 1) = 2 ^ d := by
          rw [hq2, Nat.add_mul_mod_self_left]
          exact Nat.mod_eq_of_lt (by omega)
        have hke : (2 : Nat) ^ k = 2 ^ d + bsum (b0 :: rest) := by omega
        rw [hke, hm3] at hm1
        omega
    have htest : ∀ g, (cnt % 2 ^ (g + 1) = 2 ^ (g + 1) - 1) ↔ g < 0 + d := by
      intro g
      rw [hcntB]
      simpa using trailing_ones_test hdvd g
    have hterm : (b0 :: rest) = [0 + d] ∨
        ((b0 :: rest) ≠ [] ∧ ∀ b ∈ b0 :: rest, 0 + d < b) := by
      refine Or.inr ⟨by simp, ?_⟩
      intro b hb
      have := hall b hb
      omega
    obtain ⟨w, bsOut, hrun, hspw, hlistw, hcase⟩ :=
      carry_run d x hsp Perfect.nil hs0 htest hterm
    rw [show (2 : Nat) ^ (0 + 1) - 1 = 1 from rfl] at hrun
    have hcase2 : bsOut = d :: b0 :: rest := by
      rcases hcase with ⟨hTailEq, _⟩ | ⟨_, hbsOut⟩
      · injection hTailEq with hb1 _
        omega
      · rw [hbsOut]
        congr 1
        omega
    refine ⟨w, bsOut, ?_, hspw, ?_, ?_, ?_⟩
    · rw [show buildStep t cnt x = carryRots cnt 1 (update_stats (node x t nil 1 0))
          from by simp [buildStep, hnp]]
      rw [update_stats_node]
      exact hrun
    · rw [hcase2]
      refine List.pairwise_cons.2 ⟨?_, (List.pairwise_append.1 hsort).2.1⟩
      intro b hb
      have := hall b hb
      omega
    · rw [hlistw]
      simp
    · have hcw := (spineT_spec hspw).2.1
      rw [hcase2, bsum_cons] at hcw
      omega

/-- The incremental pass of `from_iter` over the whole input (count.rs
157-173): folding `buildStep` from a spine yields a spine holding all the
items in order, and never fails. -/
lemma buildFold_spine : ∀ (xs : List α) {t : CTree α} {bs : List Nat} {cnt : Nat},
    SpineT t bs → List.Pairwise (· < ·) bs → cnt = tcount t →
    ∃ u bsOut, buildFold t cnt xs = some (u, cnt + xs.length) ∧ SpineT u bsOut ∧
      List.Pairwise (· < ·) bsOut ∧ toList u = toList t ++ xs := by
  intro xs
  induction xs with
  | nil =>
    intro t bs cnt hsp hsort hcnt
    exact ⟨t, bs, by simp [buildFold], hsp, hsort, by simp⟩
  | cons x xs ih =>
    intro t bs cnt hsp hsort hcnt
    obtain ⟨w, bsOut, hstep, hspw, hsortw, hlistw, hcw⟩ :=
      @buildStep_spine α t bs (cnt + 1) x hsp hsort (by omega)
    obtain ⟨u, bsOut2, hfold, hspu, hsortu, hlistu⟩ := ih hspw hsortw hcw.symm
    refine ⟨u, bsOut2, ?_, hspu, hsortu, ?_⟩
    · simp only [buildFold, hstep]
      rw [hfold]
      congr 2
      simp
      omega
    · rw [hlistu, hlistw]
      simp

/-! ### The inner walk of the final pass -/

lemma fixWalk_node (v : α) (l r : CTree α) (c h : Nat) :
    fixWalk (node v l r c h) =
      if 1 < bf (node v l r c h) then
        match l with
        | nil => none
        | node lv ll lr lc lh =>
          match fixWalk (update_stats (node v lr r c h)) with
          | none => none
          | some nr => some (update_stats (node lv ll nr lc lh))
      else some (node v l r c h) := by
  rw [fixWalk.eq_def]

lemma fixWalk_node_node (v lv : α) (ll lr r : CTree α) (lc lh c h : Nat) :
    fixWalk (node v (node lv ll lr lc lh) r c h) =
      if 1 < bf (node v (node lv ll lr lc lh) r c h) then
        match fixWalk (update_stats (node v lr r c h)) with
        | none => none
        | some nr => some (update_stats (node lv ll nr lc lh))
      else some (node v (node lv ll lr lc lh) r c h) := by
  rw [fixWalk.eq_def]

lemma theight_update_stats_node (v : α) (l r : CTree α) (c h : Nat) :
    theight (update_stats (node v l r c h)) =
      if 1 < tcount l + tcount r + 1 then max (theight l) (theight r) + 1
      else max (theight l) (theight r) := rfl

lemma perfect_theight {t : CTree α} {k : Nat} (hp : Perfect t k) (hk : 1 ≤ k) :
    theight t = k - 1 := by
  cases hp with
  | nil => omega
  | node v hl hr =>
    rw [theight_node]
    omega

/-- The inner walk of the final pass (count.rs 178-185, spec §4.1/§4.4),
run on a node whose left subtree is a perfect block: it succeeds and returns
a stats-consistent tree with the same in-order list, the same element count,
and the same height as the cached values at entry. -/
lemma fixWalk_perfect (e : Nat) : ∀ {P Q : CTree α} {x : α} {c h : Nat},
    Perfect P e → statsOk Q = true → statsOk (node x P Q c h) = true →
    ∃ u, fixWalk (node x P Q c h) = some u ∧ statsOk u = true ∧
      toList u = toList P ++ x :: toList Q ∧ theight u = h ∧ tcount u = c := by
  induction e with
  | zero =>
    intro P Q x c h hp hsq hs
    cases hp
    have hQl : -1 ≤ ht Q := ht_lower Q
    have hcond : ¬ 1 < bf (node x nil Q c h) := by
      rw [bf_eq_ht hs, ht_nil]
      omega
    refine ⟨node x nil Q c h, ?_, hs, rfl, rfl, rfl⟩
    rw [fixWalk_node, if_neg hcond]
  | succ k ih =>
    intro P Q x c h hp hsq hs
    cases hp with
    | node pv hpl hpr =>
      rename_i P1 P2
      have hbf : bf (node x (node pv P1 P2 (2 ^ (k + 1) - 1) k) Q c h) =
          (k : Int) - ht Q := by
        rw [bf_eq_ht hs, ht_node]
      by_cases hcond : 1 < bf (node x (node pv P1 P2 (2 ^ (k + 1) - 1) k) Q c h)
      · have hQlow : -1 ≤ ht Q := ht_lower Q
        have hQhi : ht Q ≤ (k : Int) - 2 := by
          rw [hbf] at hcond
          omega
        have hk1 : 1 ≤ k := by omega
        have h2k : (2 : Nat) ≤ 2 ^ k := by
          calc (2 : Nat) = 2 ^ 1 := rfl
          _ ≤ 2 ^ k := Nat.pow_le_pow_right (by omega) hk1
        have h2k1 : (2 : Nat) ^ (k + 1) = 2 * 2 ^ k := by rw [pow_succ]; ring
        obtain ⟨hsP1, hcP1, hhP1⟩ := perfect_spec hpl
        obtain ⟨hsP2, hcP2, hhP2⟩ := perfect_spec hpr
        have hsInner : statsOk (update_stats (node x P2 Q c h)) = true :=
          statsOk_update_stats hsP2 hsq
        rw [update_stats_node] at hsInner
        obtain ⟨u1, hru1, hsu1, hlu1, hhu1, hcu1⟩ := ih hpr hsq hsInner
        have htP1 : theight P1 = k - 1 := perfect_theight hpl hk1
        have htP2 : theight P2 = k - 1 := perfect_theight hpr hk1
        have htQle : theight Q ≤ k - 1 := by
          cases hQn : Q with
          | nil => simp [theight]
          | node v2 l2 r2 c2 h2 =>
            rw [hQn, ht_node] at hQhi
            rw [theight_node]
            omega
        have hcnt1 : tcount P1 = 2 ^ k - 1 := by omega
        have hcnt2 : tcount P2 = 2 ^ k - 1 := by omega
        have hu1h : theight u1 = k := by
          rw [hhu1, if_pos (by omega)]
          omega
        have hcv : c = 2 ^ (k + 1) - 1 + tcount Q + 1 := by
          have := (statsOk_node.1 hs).2.2.1
          rw [tcount_node] at this
          exact this
        have hhv : h = k + 1 := by
          have hh := (statsOk_node.1 hs).2.2.2
          rw [if_pos (by omega), theight_node] at hh
          rw [hh]
          omega
        refine ⟨update_stats (node pv P1 u1 (2 ^ (k + 1) - 1) k), ?_, ?_, ?_, ?_, ?_⟩
        · rw [fixWalk_node_node, if_pos hcond]
          rw [update_stats_node, hru1]
        · exact statsOk_update_stats hsP1 hsu1
        · rw [toList_update_stats, toList_node, toList_node, hlu1]
          simp
        · rw [theight_update_stats_node, if_pos (by omega), htP1, hu1h]
          omega
        · rw [tcount_update_stats_node, hcu1]
          omega
      · refine ⟨node x (node pv P1 P2 (2 ^ (k + 1) - 1) k) Q c h, ?_, hs, rfl, rfl, rfl⟩
        rw [fixWalk_node, if_neg hcond]

/-! ### The final corrective loop of from_iter -/

lemma tlcount_node (v : α) (l r : CTree α) (c h : Nat) :
    tlcount (node v l r c h) = tcount l := rfl

lemma finalFix_eq (fuel bt : Nat) (t : CTree α) :
    finalFix fuel bt t =
      if bt < tlcount t + 1 then
        match fuel with
        | 0 => none
        | fuel2 + 1 =>
          match rotR t with
          | none => none
          | some nil => none
          | some (node v l r c h) =>
            match fixWalk r with
            | none => none
            | some r2 => finalFix fuel2 bt (node v l r2 c h)
      else some t := by
  rw [finalFix.eq_def]

/-- One iteration of the final loop on a node with a node left child:
rotate right at the root, then run the inner walk on the new right child
(whose success is supplied as a hypothesis), and continue with the new root,
whose cached statistics were computed by the rotation before the walk ran. -/
lemma finalFix_rot {fuel2 bt : Nat} {x lv : α} {L2 R2 Q Q2 : CTree α} {lc lh c h : Nat}
    (hcond : bt < tlcount (node x (node lv L2 R2 lc lh) Q c h) + 1)
    (hfix : fixWalk (update_stats (node x R2 Q c h)) = some Q2) :
    finalFix (fuel2 + 1) bt (node x (node lv L2 R2 lc lh) Q c h) =
      finalFix fuel2 bt (node lv L2 Q2
        (tcount L2 + tcount (update_stats (node x R2 Q c h)) + 1)
        (if 1 < tcount L2 + tcount (update_stats (node x R2 Q c h)) + 1
         then max (theight L2) (theight (update_stats (node x R2 Q c h))) + 1
         else max (theight L2) (theight (update_stats (node x R2 Q c h))))) := by
  rw [finalFix_eq, if_pos hcond]
  show (match fixWalk (update_stats (node x R2 Q c h)) with
      | none => none
      | some r2 => finalFix fuel2 bt (node lv L2 r2
          (tcount L2 + tcount (update_stats (node x R2 Q c h)) + 1)
          (if 1 < tcount L2 + tcount (update_stats (node x R2 Q c h)) + 1
           then max (theight L2) (theight (update_stats (node x R2 Q c h))) + 1
           else max (theight L2) (theight (update_stats (node x R2 Q c h)))))) = _
  rw [hfix]

/-- The final loop only ever returns stats-consistent trees with the
in-order list of its starting state, as long as that state is a root over a
spine left subtree and a stats-consistent right subtree. -/
lemma finalFix_sound (fuel : Nat) : ∀ {bt : Nat} {x : α} {L Q : CTree α} {c h : Nat}
    {bs : List Nat} {w : CTree α},
    SpineT L bs → List.Pairwise (· < ·) bs → statsOk Q = true →
    statsOk (node x L Q c h) = true →
    finalFix fuel bt (node x L Q c h) = some w →
    statsOk w = true ∧ toList w = toList (node x L Q c h) := by
  induction fuel with
  | zero =>
    intro bt x L Q c h bs w hsp hsort hsQ hs hrun
    by_cases hcond : bt < tlcount (node x L Q c h) + 1
    · rw [finalFix_eq, if_pos hcond] at hrun
      exact Option.noConfusion hrun
    · rw [finalFix_eq, if_neg hcond] at hrun
      obtain rfl : node x L Q c h = w := Option.some.inj hrun
      exact ⟨hs, rfl⟩
  | succ fuel2 ih =>
    intro bt x L Q c h bs w hsp hsort hsQ hs hrun
    by_cases hcond : bt < tlcount (node x L Q c h) + 1
    · have hstep : ∀ (lv : α) (L2 R2 : CTree α) (lc lh e : Nat) (bs2 : List Nat),
          L = node lv L2 R2 lc lh → SpineT L2 bs2 → List.Pairwise (· < ·) bs2 →
          Perfect R2 e →
          statsOk w = true ∧ toList w = toList (node x L Q c h) := by
        intro lv L2 R2 lc lh e bs2 hLeq hL2 hsort2 hR2
        subst hLeq
        obtain ⟨hsL, hsQx, _, _⟩ := statsOk_node.1 hs
        obtain ⟨hsL2, hsR2, _, _⟩ := statsOk_node.1 hsL
        have hsInner : statsOk (update_stats (node x R2 Q c h)) = true :=
          statsOk_update_stats hsR2 hsQ
        rw [update_stats_node] at hsInner
        obtain ⟨Q2, hfix, hsQ2, hlQ2, hhQ2, hcQ2⟩ := fixWalk_perfect e hR2 hsQ hsInner
        have hfix2 : fixWalk (update_stats (node x R2 Q c h)) = some Q2 := hfix
        rw [finalFix_rot hcond hfix2] at hrun
        have hsNew : statsOk (node lv L2 Q2
            (tcount L2 + tcount (update_stats (node x R2 Q c h)) + 1)
            (if 1 < tcount L2 + tcount (update_stats (node x R2 Q c h)) + 1
             then max (theight L2) (theight (update_stats (node x R2 Q c h))) + 1
             else max (theight L2) (theight (update_stats (node x R2 Q c h))))) = true := by
          refine statsOk_node.2 ⟨hsL2, hsQ2, ?_, ?_⟩
          · rw [tcount_update_stats_node, hcQ2]
          · rw [theight_update_stats_node, tcount_update_stats_node, hhQ2]
        obtain ⟨hsw, hlw⟩ := ih hL2 hsort2 hsQ2 hsNew hrun
        refine ⟨hsw, ?_⟩
        rw [hlw, toList_node, toList_node, toList_node, hlQ2]
        simp
      cases hsp with
      | base hp =>
        cases hp with
        | nil =>
          rw [finalFix_eq, if_pos hcond] at hrun
          exact Option.noConfusion hrun
        | node pv hP1 hP2 =>
          exact hstep pv _ _ _ _ _ [_] rfl (SpineT.base hP1) (by simp) hP2
      | cons lv hL2 hR2 hgt hc2 hh2 =>
        exact hstep lv _ _ _ _ _ _ rfl hL2 ((List.pairwise_cons.1 hsort).2) hR2
    · rw [finalFix_eq, if_neg hcond] at hrun
      obtain rfl : node x L Q c h = w := Option.some.inj hrun
      exact ⟨hs, rfl⟩

/-- With `balanced_till ≥ 1` and enough fuel, the final loop terminates by
reaching the loop condition: each rotation strictly shrinks the left
subtree, and once the left subtree is empty the condition `bt < lcount + 1`
fails.  This models the source loop completing (count.rs 174-187). -/
lemma finalFix_run (fuel : Nat) : ∀ {bt : Nat} {x : α} {L Q : CTree α} {c h : Nat}
    {bs : List Nat},
    SpineT L bs → List.Pairwise (· < ·) bs → statsOk Q = true →
    statsOk (node x L Q c h) = true →
    1 ≤ bt → tcount L < fuel →
    ∃ w, finalFix fuel bt (node x L Q c h) = some w := by
  induction fuel with
  | zero =>
    intro bt x L Q c h bs hsp hsort hsQ hs hbt hfuel
    omega
  | succ fuel2 ih =>
    intro bt x L Q c h bs hsp hsort hsQ hs hbt hfuel
    by_cases hcond : bt < tlcount (node x L Q c h) + 1
    · have hstep : ∀ (lv : α) (L2 R2 : CTree α) (lc lh e : Nat) (bs2 : List Nat),
          L = node lv L2 R2 lc lh → SpineT L2 bs2 → List.Pairwise (· < ·) bs2 →
          Perfect R2 e →
          ∃ w, finalFix (fuel2 + 1) bt (node x L Q c h) = some w := by
        intro lv L2 R2 lc lh e bs2 hLeq hL2 hsort2 hR2
        subst hLeq
        obtain ⟨hsL, hsQx, hcL, _⟩ := statsOk_node.1 hs
        obtain ⟨hsL2, hsR2, hcL2, _⟩ := statsOk_node.1 hsL
        have hsInner : statsOk (update_stats (node x R2 Q c h)) = true :=
          statsOk_update_stats hsR2 hsQ
        rw [update_stats_node] at hsInner
        obtain ⟨Q2, hfix, hsQ2, hlQ2, hhQ2, hcQ2⟩ := fixWalk_perfect e hR2 hsQ hsInner
        have hfix2 : fixWalk (update_stats (node x R2 Q c h)) = some Q2 := hfix
        rw [finalFix_rot hcond hfix2]
        have hsNew : statsOk (node lv L2 Q2
            (tcount L2 + tcount (update_stats (node x R2 Q c h)) + 1)
            (if 1 < tcount L2 + tcount (update_stats (node x R2 Q c h)) + 1
             then max (theight L2) (theight (update_stats (node x R2 Q c h))) + 1
             else max (theight L2) (theight (update_stats (node x R2 Q c h))))) = true := by
          refine statsOk_node.2 ⟨hsL2, hsQ2, ?_, ?_⟩
          · rw [tcount_update_stats_node, hcQ2]
          · rw [theight_update_stats_node, tcount_update_stats_node, hhQ2]
        refine ih hL2 hsort2 hsQ2 hsNew hbt ?_
        have hR2pos : 1 ≤ tcount R2 + 1 := by omega
        have hR2c := (perfect_spec hR2).2.1
        have h1e : (1 : Nat) ≤ 2 ^ e := Nat.one_le_two_pow
        rw [tcount_node] at hfuel
        omega
      cases hsp with
      | base hp =>
        cases hp with
        | nil =>
          rw [tlcount_node, tcount_nil] at hcond
          omega
        | node pv hP1 hP2 =>
          exact hstep pv _ _ _ _ _ [_] rfl (SpineT.base hP1) (by simp) hP2
      | cons lv hL2 hR2 hgt hc2 hh2 =>
        exact hstep lv _ _ _ _ _ _ rfl hL2 ((List.pairwise_cons.1 hsort).2) hR2
    · exact ⟨node x L Q c h, by rw [finalFix_eq, if_neg hcond]⟩

/-! ### The bit smear of exp_floor_log -/

lemma smear_step {n a m : Nat}
    (ha : ∀ i, a.testBit i = true ↔ ∃ off, off < m ∧ n.testBit (i + off) = true) :
    ∀ i, (a ||| a >>> m).testBit i = true ↔
      ∃ off, off < 2 * m ∧ n.testBit (i + off) = true := by
  intro i
  rw [Nat.testBit_or, Bool.or_eq_true, Nat.testBit_shiftRight a, ha i, ha (m + i)]
  constructor
  · rintro (⟨off, hlt, hbit⟩ | ⟨off, hlt, hbit⟩)
    · exact ⟨off, by omega, hbit⟩
    · refine ⟨m + off, by omega, ?_⟩
      have he : i + (m + off) = m + i + off := by omega
      rw [he]
      exact hbit
  · rintro ⟨off, hlt, hbit⟩
    by_cases hom : off < m
    · exact Or.inl ⟨off, hom, hbit⟩
    · refine Or.inr ⟨off - m, by omega, ?_⟩
      have he : m + i + (off - m) = i + off := by omega
      rw [he]
      exact hbit

/-- The five shift-or stages of `exp_floor_log` (count.rs 137-142) smear the
most significant one bit of any `n < 2^32` over all lower positions. -/
lemma smear_val {n : Nat} (h1 : 1 ≤ n) (h2 : n < 2 ^ 32) :
    ((((n ||| n >>> 1) ||| (n ||| n >>> 1) >>> 2) |||
        ((n ||| n >>> 1) ||| (n ||| n >>> 1) >>> 2) >>> 4) |||
       (((n ||| n >>> 1) ||| (n ||| n >>> 1) >>> 2) |||
        ((n ||| n >>> 1) ||| (n ||| n >>> 1) >>> 2) >>> 4) >>> 8) |||
      (((((n ||| n >>> 1) ||| (n ||| n >>> 1) >>> 2) |||
        ((n ||| n >>> 1) ||| (n ||| n >>> 1) >>> 2) >>> 4) |||
       (((n ||| n >>> 1) ||| (n ||| n >>> 1) >>> 2) |||
        ((n ||| n >>> 1) ||| (n ||| n >>> 1) >>> 2) >>> 4) >>> 8)) >>> 16 =
      2 ^ (Nat.log2 n + 1) - 1 := by
  have c1 : ∀ i, n.testBit i = true ↔ ∃ off, off < 1 ∧ n.testBit (i + off) = true := by
    intro i
    constructor
    · intro hb
      exact ⟨0, by omega, by simpa using hb⟩
    · rintro ⟨off, hlt, hb⟩
      have : off = 0 := by omega
      subst this
      simpa using hb
  have c2 := smear_step c1
  rw [show (2 : Nat) * 1 = 2 from rfl] at c2
  have c3 := smear_step c2
  rw [show (2 : Nat) * 2 = 4 from rfl] at c3
  have c4 := smear_step c3
  rw [show (2 : Nat) * 4 = 8 from rfl] at c4
  have c5 := smear_step c4
  rw [show (2 : Nat) * 8 = 16 from rfl] at c5
  have c6 := smear_step c5
  rw [show (2 : Nat) * 16 = 32 from rfl] at c6
  have hlog : Nat.log2 n < 32 := (Nat.log2_lt (by omega)).2 h2
  have hmsb : n.testBit (Nat.log2 n) = true := by
    rw [Nat.testBit_to_div_mod]
    have hle : 2 ^ Nat.log2 n ≤ n := Nat.log2_self_le (by omega)
    have hlt : n < 2 ^ (Nat.log2 n + 1) := Nat.lt_log2_self
    have hpow : (2 : Nat) ^ (Nat.log2 n + 1) = 2 * 2 ^ Nat.log2 n := by rw [pow_succ]; ring
    have hdv : n / 2 ^ Nat.log2 n = 1 :=
      Nat.div_eq_of_lt_le (by omega) (by omega)
    rw [hdv]
    decide
  apply Nat.eq_of_testBit_eq
  intro i
  rw [Nat.testBit_two_pow_sub_one]
  by_cases hi : i < Nat.log2 n + 1
  · rw [decide_eq_true (by omega)]
    rw [c6 i]
    refine ⟨Nat.log2 n - i, by omega, ?_⟩
    have he : i + (Nat.log2 n - i) = Nat.log2 n := by omega
    rw [he]
    exact hmsb
  · rw [decide_eq_false (by omega)]
    cases hbit : (((((n ||| n >>> 1) ||| (n ||| n >>> 1) >>> 2) |||
        ((n ||| n >>> 1) ||| (n ||| n >>> 1) >>> 2) >>> 4) |||
       (((n ||| n >>> 1) ||| (n ||| n >>> 1) >>> 2) |||
        ((n ||| n >>> 1) ||| (n ||| n >>> 1) >>> 2) >>> 4) >>> 8) |||
      (((((n ||| n >>> 1) ||| (n ||| n >>> 1) >>> 2) |||
        ((n ||| n >>> 1) ||| (n ||| n >>> 1) >>> 2) >>> 4) |||
       (((n ||| n >>> 1) ||| (n ||| n >>> 1) >>> 2) |||
        ((n ||| n >>> 1) ||| (n ||| n >>> 1) >>> 2) >>> 4) >>> 8)) >>> 16).testBit i with
    | false => rfl
    | true =>
      exfalso
      obtain ⟨off, _, hb⟩ := (c6 i).1 hbit
      have hup : n < 2 ^ (i + off) := by
        have hlt : n < 2 ^ (Nat.log2 n + 1) := Nat.lt_log2_self
        have hmono : (2 : Nat) ^ (Nat.log2 n + 1) ≤ 2 ^ (i + off) :=
          Nat.pow_le_pow_right (by omega) (by omega)
        omega
      rw [Nat.testBit_lt_two_pow hup] at hb
      exact Bool.noConfusion hb

/-- `exp_floor_log` on a non-power input that fits in the lower half of the
`u32` range: the smear-and-increment computes `2 ^ floor(log2 (v - 1))`. -/
lemma exp_floor_log_nonpow_small {v : Nat} (h2 : 2 ≤ v) (hnp : is_power v = false)
    (hub : v ≤ 2 ^ 31) :
    exp_floor_log v = 2 ^ Nat.log2 (v - 1) := by
  have h0 : ¬ (v = 0 ∨ is_power v = true) := by
    rintro (h | h)
    · omega
    · rw [hnp] at h
      exact Bool.noConfusion h
  unfold exp_floor_log
  rw [if_neg h0]
  simp only []
  rw [smear_val (by omega) (by omega)]
  have hL : Nat.log2 (v - 1) < 31 := by
    rw [Nat.log2_lt (by omega)]
    omega
  have h2L : (2 : Nat) ^ (Nat.log2 (v - 1) + 1) = 2 * 2 ^ Nat.log2 (v - 1) := by
    rw [pow_succ]
    ring
  have h1L : (1 : Nat) ≤ 2 ^ (Nat.log2 (v - 1) + 1) := Nat.one_le_two_pow
  have hlt32 : (2 : Nat) ^ (Nat.log2 (v - 1) + 1) < 2 ^ 32 :=
    Nat.pow_lt_pow_right (by omega) (by omega)
  have hsub : 2 ^ (Nat.log2 (v - 1) + 1) - 1 + 1 = 2 ^ (Nat.log2 (v - 1) + 1) := by omega
  rw [hsub, Nat.mod_eq_of_lt hlt32]
  rw [Nat.shiftRight_succ, Nat.shiftRight_zero]
  omega

/-- `exp_floor_log` on a non-power input above `2^31`: the smear saturates
all 32 bits, the `u32` increment overflows to zero, and the result is `0`
rather than the mathematical `2 ^ floor(log2 v)`. -/
lemma exp_floor_log_nonpow_big {v : Nat} (hnp : is_power v = false)
    (hlb : 2 ^ 31 < v) (hub : v < 2 ^ 32) :
    exp_floor_log v = 0 := by
  have h0 : ¬ (v = 0 ∨ is_power v = true) := by
    rintro (h | h)
    · omega
    · rw [hnp] at h
      exact Bool.noConfusion h
  unfold exp_floor_log
  rw [if_neg h0]
  simp only []
  rw [smear_val (by omega) (by omega)]
  have hge : 31 ≤ Nat.log2 (v - 1) := by
    rw [Nat.le_log2 (by omega)]
    omega
  have hlt : Nat.log2 (v - 1) < 32 := by
    rw [Nat.log2_lt (by omega)]
    omega
  have h31 : Nat.log2 (v - 1) = 31 := by omega
  rw [h31]
  have h1L : (1 : Nat) ≤ 2 ^ 32 := Nat.one_le_two_pow
  have hsub : (2 : Nat) ^ (31 + 1) - 1 + 1 = 2 ^ 32 := by
    have : (31 : Nat) + 1 = 32 := rfl
    rw [this]
    omega
  rw [hsub, Nat.mod_self]
  rfl

/-- On the range where the final pass is exercised with a meaningful bound,
`exp_floor_log` is at least `2`, so `balanced_till ≥ 1`. -/
lemma exp_floor_log_ge_two {v : Nat} (h2 : 2 ≤ v) (hub : v ≤ 2 ^ 31) :
    2 ≤ exp_floor_log v := by
  cases hip : is_power v with
  | true =>
    unfold exp_floor_log
    rw [if_pos (Or.inr hip)]
    exact h2
  | false =>
    have hv3 : 3 ≤ v := by
      rcases Nat.lt_or_ge v 3 with h | h
      · exfalso
        have hv2 : v = 2 := by omega
        subst hv2
        have : is_power 2 = true := by decide
        rw [this] at hip
        exact Bool.noConfusion hip
      · exact h
    rw [exp_floor_log_nonpow_small h2 hip hub]
    have hlog1 : 1 ≤ Nat.log2 (v - 1) := by
      rw [Nat.le_log2 (by omega)]
      omega
    calc (2 : Nat) = 2 ^ 1 := rfl
    _ ≤ 2 ^ Nat.log2 (v - 1) := Nat.pow_le_pow_right (by omega) hlog1

/-! ### from_iter end to end -/

lemma perfect_leaf (x : α) : Perfect (leaf x) 1 :=
  Perfect.node x Perfect.nil Perfect.nil

/-- Soundness of `from_iter` (count.rs 148-192): whenever the model
completes, the result is stats-consistent and holds exactly the input items
in order. -/
lemma fromIterO_sound {l : List α} {t : CTree α} (hft : fromIterO l = some t) :
    statsOk t = true ∧ toList t = l := by
  cases l with
  | nil =>
    obtain rfl : nil = t := Option.some.inj hft
    exact ⟨rfl, rfl⟩
  | cons x xs =>
    obtain ⟨u, bsOut, hfold, hspu, hsortu, hlistu⟩ :=
      buildFold_spine xs (SpineT.base (perfect_leaf x)) (by simp)
        (show (1 : Nat) = tcount (leaf x) from rfl)
    simp only [fromIterO] at hft
    rw [hfold] at hft
    have hrun : finalFix (1 + xs.length + 1) (exp_floor_log (1 + xs.length + 1) - 1) u
        = some t := hft
    have hlu : toList u = x :: xs := by
      rw [hlistu]
      simp [leaf]
    have hsu : statsOk u = true := (spineT_spec hspu).1
    have hcu : tcount u = xs.length + 1 := by
      rw [statsOk_tcount_toList hsu, hlu]
      simp
    cases hspu with
    | base hp =>
      cases hp with
      | nil => simp at hcu
      | node pv hP1 hP2 =>
        obtain ⟨hs1, hlw⟩ :=
          finalFix_sound _ (SpineT.base hP1) (by simp) (perfect_spec hP2).1 hsu hrun
        rw [hlw, hlu] at *
        exact ⟨hs1, by rw [hlw, hlu]⟩
    | cons lv hL2 hR2 hgt hc2 hh2 =>
      obtain ⟨hs1, hlw⟩ :=
        finalFix_sound _ hL2 ((List.pairwise_cons.1 hsortu).2) (perfect_spec hR2).1 hsu hrun
      exact ⟨hs1, by rw [hlw, hlu]⟩

/-- Completion of `from_iter` (count.rs 148-192) for inputs of less than
`2^31` items: the build succeeds, no rotation fails, and the result holds
exactly the input items in order. -/
lemma fromIterO_run {l : List α} (hlen : l.length < 2 ^ 31) :
    ∃ t, fromIterO l = some t ∧ statsOk t = true ∧ toList t = l := by
  cases hl : l with
  | nil => exact ⟨nil, rfl, rfl, rfl⟩
  | cons x xs =>
    subst hl
    obtain ⟨u, bsOut, hfold, hspu, hsortu, hlistu⟩ :=
      buildFold_spine xs (SpineT.base (perfect_leaf x)) (by simp)
        (show (1 : Nat) = tcount (leaf x) from rfl)
    have hsu : statsOk u = true := (spineT_spec hspu).1
    have hlu : toList u = x :: xs := by
      rw [hlistu]
      simp [leaf]
    have hcu : tcount u = xs.length + 1 := by
      rw [statsOk_tcount_toList hsu, hlu]
      simp
    have hxs : xs.length + 2 ≤ 2 ^ 31 := by
      simp at hlen
      omega
    have hbt : 1 ≤ exp_floor_log (1 + xs.length + 1) - 1 := by
      have := exp_floor_log_ge_two (v := 1 + xs.length + 1) (by omega) (by omega)
      omega
    have hrun : ∃ w, finalFix (1 + xs.length + 1) (exp_floor_log (1 + xs.length + 1) - 1) u
        = some w := by
      cases hspu with
      | base hp =>
        cases hp with
        | nil => simp at hcu
        | node pv hP1 hP2 =>
          refine finalFix_run _ (SpineT.base hP1) (by simp) (perfect_spec hP2).1 hsu hbt ?_
          have hc := (statsOk_node.1 hsu).2.2.1
          rw [tcount_node] at hcu
          omega
      | cons lv hL2 hR2 hgt hc2 hh2 =>
        refine finalFix_run _ hL2 ((List.pairwise_cons.1 hsortu).2) (perfect_spec hR2).1 hsu hbt ?_
        have hc := (statsOk_node.1 hsu).2.2.1
        rw [tcount_node] at hcu
        omega
    obtain ⟨w, hw⟩ := hrun
    have hft : fromIterO (x :: xs) = some w := by
      simp only [fromIterO]
      rw [hfold]
      exact hw
    obtain ⟨hsw, hlw⟩ := fromIterO_sound hft
    exact ⟨w, hft, hsw, hlw⟩

/-! ### Claim theorems (error handling and concrete scenarios) -/

/-- Claim C5: for every tree and every index greater than `len()`,
`insert` panics (modelled as `none`) rather than clamping, leaving the tree
unchanged (the model is pure and the source panics before any mutation);
and `insert` never panics for any index at most `len()`. -/
theorem claim_C5 (t : CTree α) (i : Nat) (v : α) :
    (insertO t i v = none ↔ tlen t < i) ∧
      ((insertO t i v).isSome ↔ i ≤ tlen t) := by
  refine ⟨insertO_none_iff t i v, ?_⟩
  rw [Option.isSome_iff_ne_none, ne_eq, insertO_none_iff]
  omega

/-- Claim C7: starting from an empty tree, inserting 6,5,4,3,2,1 each at
index 0 yields the positional sequence 6,5,4,3,2,1 with root value 4 and
root balance factor 0; then inserting 7 at index 0 and 0 at index 7 yields
7,6,5,4,3,2,1,0 with `get(6) = 1` and root balance factor -1
(tests::insert, count.rs 434-461). -/
theorem claim_C7 :
    (do
        let t1 ← insertO (nil : CTree Nat) 0 1
        let t2 ← insertO t1 0 2
        let t3 ← insertO t2 0 3
        let t4 ← insertO t3 0 4
        let t5 ← insertO t4 0 5
        insertO t5 0 6) =
      some (node 4
        (node 5 (node 6 nil nil 1 0) nil 2 1)
        (node 2 (node 3 nil nil 1 0) (node 1 nil nil 1 0) 3 1) 6 2) ∧
    toList (node 4
        (node 5 (node 6 nil nil 1 0) nil 2 1)
        (node 2 (node 3 nil nil 1 0) (node 1 nil nil 1 0) 3 1) 6 2 : CTree Nat) =
      [6, 5, 4, 3, 2, 1] ∧
    rootVal (node 4
        (node 5 (node 6 nil nil 1 0) nil 2 1)
        (node 2 (node 3 nil nil 1 0) (node 1 nil nil 1 0) 3 1) 6 2 : CTree Nat) = some 4 ∧
    bf (node 4
        (node 5 (node 6 nil nil 1 0) nil 2 1)
        (node 2 (node 3 nil nil 1 0) (node 1 nil nil 1 0) 3 1) 6 2 : CTree Nat) = 0 ∧
    (do
        let t7 ← insertO (node 4
          (node 5 (node 6 nil nil 1 0) nil 2 1)
          (node 2 (node 3 nil nil 1 0) (node 1 nil nil 1 0) 3 1) 6 2 : CTree Nat) 0 7
        insertO t7 7 0) =
      some (node 4
        (node 6 (node 7 nil nil 1 0) (node 5 nil nil 1 0) 3 1)
        (node 2 (node 3 nil nil 1 0) (node 1 nil (node 0 nil nil 1 0) 2 1) 4 2) 8 3) ∧
    toList (node 4
        (node 6 (node 7 nil nil 1 0) (node 5 nil nil 1 0) 3 1)
        (node 2 (node 3 nil nil 1 0) (node 1 nil (node 0 nil nil 1 0) 2 1) 4 2) 8 3 : CTree Nat) =
      [7, 6, 5, 4, 3, 2, 1, 0] ∧
    get? (node 4
        (node 6 (node 7 nil nil 1 0) (node 5 nil nil 1 0) 3 1)
        (node 2 (node 3 nil nil 1 0) (node 1 nil (node 0 nil nil 1 0) 2 1) 4 2) 8 3 : CTree Nat)
        6 = some 1 ∧
    bf (node 4
        (node 6 (node 7 nil nil 1 0) (node 5 nil nil 1 0) 3 1)
        (node 2 (node 3 nil nil 1 0) (node 1 nil (node 0 nil nil 1 0) 2 1) 4 2) 8 3 : CTree Nat) =
      -1 := by
  decide

/-! ### The public-reachability invariant -/

/-- Every tree reachable through the public constructors has consistent
cached statistics. -/
lemma reachable_statsOk {t : CTree α} (hr : Reachable t) : statsOk t = true := by
  induction hr with
  | new => rfl
  | insert t i v t' hr hins ih =>
    have hi : i ≤ tlen t := by
      by_contra hlt
      have hnone : insertO t i v = none := (insertO_none_iff t i v).2 (by omega)
      rw [hnone] at hins
      exact Option.noConfusion hins
    obtain ⟨t2, heq, hst, _, _⟩ := @insertO_spec α t i v ih hi
    rw [heq] at hins
    obtain rfl : t2 = t' := Option.some.inj hins
    exact hst
  | fromIter l t hft => exact (fromIterO_sound hft).1

/-! ### The iterator invariant -/

lemma iterSteps_inv (k : Nat) :
    ∀ (L : List α), iterSteps k (⟨L.length, L⟩ : IterSt α) = ⟨L.length - k, L.drop k⟩ := by
  induction k with
  | zero => intro L; simp [iterSteps]
  | succ k ih =>
    intro L
    cases L with
    | nil =>
      simp only [iterSteps, List.length_nil]
      have hstep : (iterNext (⟨0, []⟩ : IterSt α)).2 = ⟨0, ([] : List α)⟩ := by
        simp [iterNext]
      rw [hstep]
      have h0 := ih ([] : List α)
      simp only [List.length_nil] at h0
      rw [h0]
      simp
    | cons x xs =>
      simp only [iterSteps, List.length_cons]
      have hstep : (iterNext (⟨xs.length + 1, x :: xs⟩ : IterSt α)).2 =
          ⟨xs.length, xs⟩ := by
        simp [iterNext]
      rw [hstep, ih xs]
      simp

/-! ### log2 of a predecessor -/

lemma log2_pred_eq {v : Nat} (h2 : 2 ≤ v) (hnp : is_power v = false) :
    Nat.log2 (v - 1) = Nat.log2 v := by
  have hv3 : 3 ≤ v := by
    rcases Nat.lt_or_ge v 3 with h | h
    · exfalso
      have hv2 : v = 2 := by omega
      subst hv2
      have ht : is_power 2 = true := by decide
      rw [hnp] at ht
      exact Bool.noConfusion ht
    · exact h
  have hlow : 2 ^ Nat.log2 v ≤ v := Nat.log2_self_le (by omega)
  have hne : 2 ^ Nat.log2 v ≠ v := by
    intro he
    have ht : is_power v = true := (is_power_iff v).2 ⟨_, he.symm⟩
    rw [hnp] at ht
    exact Bool.noConfusion ht
  have h1 : 2 ^ Nat.log2 v ≤ v - 1 := by omega
  have hub : v - 1 < 2 ^ (Nat.log2 v + 1) := by
    have := Nat.lt_log2_self (n := v)
    omega
  apply le_antisymm
  · have hlt : Nat.log2 (v - 1) < Nat.log2 v + 1 := by
      rw [Nat.log2_lt (by omega)]
      exact hub
    omega
  · rw [Nat.le_log2 (by omega)]
    exact h1

/-! ### A concrete bulk construction (six items) -/

/-- `from_iter` on `0,1,2,3,4,5`, evaluated step by step: the six-element
result has a root balance factor of `-2`. -/
lemma fromIter_counterexample :
    fromIterO [0, 1, 2, 3, 4, 5] =
      some (node 1 (node 0 nil nil 1 0)
        (node 3 (node 2 nil nil 1 0) (node 5 (node 4 nil nil 1 0) nil 2 1) 4 2) 6 3 :
        CTree Nat) := by
  have hip3 : is_power 3 = false := by decide
  have hip4 : is_power 4 = true := by decide
  have hip5 : is_power 5 = false := by decide
  have hip6 : is_power 6 = false := by decide
  have hip7 : is_power 7 = false := by decide
  have hm51 : 5 &&& 1 = 1 := by decide
  have hm53 : ¬ (5 &&& 3 = 3) := by decide
  have hm61 : ¬ (6 &&& 1 = 1) := by decide
  have h1 : buildStep (leaf (0 : Nat)) 2 1 = some (node 1 (node 0 nil nil 1 0) nil 2 1) := by
    simp [buildStep, hip3, carryRots, update_stats, rotR, tcount, theight, leaf]
  have h2 : buildStep (node 1 (node 0 nil nil 1 0) nil 2 1 : CTree Nat) 3 2 =
      some (node 1 (node 0 nil nil 1 0) (node 2 nil nil 1 0) 3 1) := by
    simp [buildStep, hip4, carryRots, update_stats, rotR, tcount, theight]
  have h3 : buildStep (node 1 (node 0 nil nil 1 0) (node 2 nil nil 1 0) 3 1 : CTree Nat) 4 3 =
      some (node 3 (node 1 (node 0 nil nil 1 0) (node 2 nil nil 1 0) 3 1) nil 4 2) := by
    simp [buildStep, hip5, carryRots, update_stats, rotR, tcount, theight]
  have h4 : buildStep (node 3 (node 1 (node 0 nil nil 1 0) (node 2 nil nil 1 0) 3 1)
        nil 4 2 : CTree Nat) 5 4 =
      some (node 3 (node 1 (node 0 nil nil 1 0) (node 2 nil nil 1 0) 3 1)
        (node 4 nil nil 1 0) 5 2) := by
    simp [buildStep, hip6, hm51, hm53, carryRots, update_stats, rotR, tcount, theight]
  have h5 : buildStep (node 3 (node 1 (node 0 nil nil 1 0) (node 2 nil nil 1 0) 3 1)
        (node 4 nil nil 1 0) 5 2 : CTree Nat) 6 5 =
      some (node 5 (node 3 (node 1 (node 0 nil nil 1 0) (node 2 nil nil 1 0) 3 1)
        (node 4 nil nil 1 0) 5 2) nil 6 3) := by
    simp [buildStep, hip7, hm61, carryRots, update_stats, rotR, tcount, theight]
  have hfold : buildFold (leaf (0 : Nat)) 1 [1, 2, 3, 4, 5] =
      some (node 5 (node 3 (node 1 (node 0 nil nil 1 0) (node 2 nil nil 1 0) 3 1)
        (node 4 nil nil 1 0) 5 2) nil 6 3, 6) := by
    simp [buildFold, h1, h2, h3, h4, h5]
  have hff : finalFix 7 3 (node 5 (node 3 (node 1 (node 0 nil nil 1 0)
        (node 2 nil nil 1 0) 3 1) (node 4 nil nil 1 0) 5 2) nil 6 3 : CTree Nat) =
      some (node 1 (node 0 nil nil 1 0)
        (node 3 (node 2 nil nil 1 0) (node 5 (node 4 nil nil 1 0) nil 2 1) 4 2) 6 3) := by
    simp [finalFix, fixWalk, rotR, update_stats, bf, tlcount, tcount, theight]
  have hefl : exp_floor_log 7 = 4 := by decide
  simp only [fromIterO]
  rw [hfold]
  show finalFix 7 (exp_floor_log 7 - 1) (node 5 (node 3 (node 1 (node 0 nil nil 1 0)
      (node 2 nil nil 1 0) 3 1) (node 4 nil nil 1 0) 5 2) nil 6 3) = _
  rw [hefl]
  exact hff

/-! ### Claim theorems (main) -/

/-- C1: for every reachable tree and index `i ≤ len`, `insert(i, v)`
succeeds, the in-order sequence becomes the old one with `v` inserted at
position `i` (elements at positions `≥ i` shift right by one), and `len`
grows by exactly one — in particular `i = len` appends `v`. -/
theorem claim_C1 {t : CTree α} (i : Nat) (v : α) (hr : Reachable t) (hi : i ≤ tlen t) :
    ∃ t', insertO t i v = some t' ∧ tlen t' = tlen t + 1 ∧
      toList t' = (toList t).take i ++ v :: (toList t).drop i := by
  obtain ⟨t', h1, _, h3, h4⟩ := @insertO_spec α t i v (reachable_statsOk hr) hi
  exact ⟨t', h1, h3, h4⟩

theorem claim_C1_witness : ∃ t', insertO (node 5 nil nil 1 0 : CTree Nat) 1 7 = some t' ∧
    tlen t' = tlen (node 5 nil nil 1 0 : CTree Nat) + 1 ∧
    toList t' = (toList (node 5 nil nil 1 0 : CTree Nat)).take 1 ++
      7 :: (toList (node 5 nil nil 1 0 : CTree Nat)).drop 1 :=
  claim_C1 1 7
    (Reachable.insert nil 0 5 (node 5 nil nil 1 0) Reachable.new (by decide)) (by decide)

/-- C2, corrected: trees reachable through `new` and `insert` alone satisfy
the AVL balance invariant at every node; the claim's further inclusion of
`from_iter` is refuted by the counterexample. -/
theorem claim_C2 {t : CTree α} (hr : ReachableIns t) : avlOk t = true :=
  (reachableIns_inv hr).2

theorem claim_C2_witness : avlOk (node 5 nil nil 1 0 : CTree Nat) = true :=
  claim_C2 (ReachableIns.insert nil 0 5 (node 5 nil nil 1 0) ReachableIns.new (by decide))

/-- C2, counterexample: the tree `from_iter` builds from six items is
reachable through the public operations but violates the AVL invariant (its
root has balance factor `-2`). -/
theorem claim_C2_counterexample :
    ∃ t : CTree Nat, Reachable t ∧ avlOk t = false ∧ toList t = [0, 1, 2, 3, 4, 5] :=
  ⟨node 1 (node 0 nil nil 1 0)
      (node 3 (node 2 nil nil 1 0) (node 5 (node 4 nil nil 1 0) nil 2 1) 4 2) 6 3,
    Reachable.fromIter [0, 1, 2, 3, 4, 5] _ fromIter_counterexample, by decide, by decide⟩

/-- C3: in every reachable tree all cached statistics are correct (each
node's count and height satisfy their defining equations), and `len` equals
the true number of elements. -/
theorem claim_C3 {t : CTree α} (hr : Reachable t) :
    statsOk t = true ∧ tlen t = (toList t).length := by
  have hs := reachable_statsOk hr
  refine ⟨hs, ?_⟩
  rw [tlen_eq_tcount]
  exact statsOk_tcount_toList hs

theorem claim_C3_witness :
    statsOk (nil : CTree Nat) = true ∧
    tlen (nil : CTree Nat) = (toList (nil : CTree Nat)).length :=
  claim_C3 Reachable.new

/-- C4: on every reachable tree, `get i` returns exactly the element at
position `i` of the in-order sequence, and returns `None` precisely when
`i ≥ len` — in particular `get 0` of the empty tree is `None`. -/
theorem claim_C4 {t : CTree α} (i : Nat) (hr : Reachable t) :
    get? t i = (toList t).get? i ∧ (get? t i = none ↔ tlen t ≤ i) := by
  have hs := reachable_statsOk hr
  have h1 := get?_eq hs i
  refine ⟨h1, ?_⟩
  rw [h1, List.get?_eq_none, tlen_eq_tcount, statsOk_tcount_toList hs]

theorem claim_C4_witness :
    get? (nil : CTree Nat) 0 = (toList (nil : CTree Nat)).get? 0 ∧
      (get? (nil : CTree Nat) 0 = none ↔ tlen (nil : CTree Nat) ≤ 0) :=
  claim_C4 0 Reachable.new

/-- C8: on every reachable tree the iterator model (covering `Iter` and
`IntoIter`, whose fields and methods coincide) reports via `size_hint` an
exact remaining count: it starts at `len`, after `k` steps it is `len - k`
with exactly the elements from position `k` on still to be yielded, and it
is `0` exactly when the iterator is exhausted. -/
theorem claim_C8 {t : CTree α} (hr : Reachable t) :
    sizeHint (iterInit t) = (tlen t, some (tlen t)) ∧
    ∀ k, sizeHint (iterSteps k (iterInit t)) = (tlen t - k, some (tlen t - k)) ∧
      (iterSteps k (iterInit t)).rest = (toList t).drop k ∧
      ((iterSteps k (iterInit t)).remaining = 0 ↔ (iterSteps k (iterInit t)).rest = []) := by
  have hs := reachable_statsOk hr
  have hlen : tlen t = (toList t).length := by
    rw [tlen_eq_tcount]
    exact statsOk_tcount_toList hs
  have hinit : iterInit t = (⟨(toList t).length, toList t⟩ : IterSt α) := by
    rw [iterInit, hlen]
  have hinv : ∀ k, iterSteps k (iterInit t) =
      (⟨(toList t).length - k, (toList t).drop k⟩ : IterSt α) := by
    intro k
    rw [hinit]
    exact iterSteps_inv k (toList t)
  refine ⟨rfl, fun k => ⟨?_, ?_, ?_⟩⟩
  · rw [hinv k, hlen]
    rfl
  · rw [hinv k]
  · rw [hinv k]
    show (toList t).length - k = 0 ↔ (toList t).drop k = []
    rw [List.drop_eq_nil_iff_le]
    omega

theorem claim_C8_witness :
    sizeHint (iterInit (nil : CTree Nat)) = (tlen (nil : CTree Nat), some (tlen (nil : CTree Nat))) ∧
    ∀ k, sizeHint (iterSteps k (iterInit (nil : CTree Nat))) =
        (tlen (nil : CTree Nat) - k, some (tlen (nil : CTree Nat) - k)) ∧
      (iterSteps k (iterInit (nil : CTree Nat))).rest = (toList (nil : CTree Nat)).drop k ∧
      ((iterSteps k (iterInit (nil : CTree Nat))).remaining = 0 ↔
        (iterSteps k (iterInit (nil : CTree Nat))).rest = []) :=
  claim_C8 Reachable.new

/-- C10, corrected: `is_power` answers exactly the powers of two (false at
`0`), and `exp_floor_log v` is `v` itself for `v = 0` or a power of two and
the largest power of two not exceeding `v` for other `v` up to `2^31`; but
for non-powers above `2^31` the claim fails — the smear-increment overflows
`u32` and the function returns `0` (see the counterexample). -/
theorem claim_C10 :
    (∀ v : Nat, is_power v = true ↔ ∃ k, v = 2 ^ k) ∧
    (∀ v : Nat, v = 0 ∨ is_power v = true → exp_floor_log v = v) ∧
    (∀ v : Nat, is_power v = false → 2 ≤ v → v ≤ 2 ^ 31 →
      exp_floor_log v = 2 ^ Nat.log2 v ∧ 2 ^ Nat.log2 v ≤ v ∧ v < 2 * 2 ^ Nat.log2 v) ∧
    (∀ v : Nat, is_power v = false → 2 ^ 31 < v → v < 2 ^ 32 → exp_floor_log v = 0) := by
  refine ⟨is_power_iff, ?_, ?_, ?_⟩
  · intro v hv
    unfold exp_floor_log
    rw [if_pos hv]
  · intro v hnp h2 hub
    refine ⟨?_, Nat.log2_self_le (by omega), ?_⟩
    · rw [exp_floor_log_nonpow_small h2 hnp hub, log2_pred_eq h2 hnp]
    · have hlt : v < 2 ^ (Nat.log2 v + 1) := Nat.lt_log2_self
      have hp : (2 : Nat) ^ (Nat.log2 v + 1) = 2 * 2 ^ Nat.log2 v := by
        rw [pow_succ]
        ring
      omega
  · intro v hnp hlb hub
    exact exp_floor_log_nonpow_big hnp hlb hub

theorem claim_C10_witness :
    (is_power 8 = true ↔ ∃ k, (8 : Nat) = 2 ^ k) ∧ exp_floor_log 8 = 8 ∧
      exp_floor_log 5 = 2 ^ Nat.log2 5 :=
  ⟨claim_C10.1 8, claim_C10.2.1 8 (Or.inr (by decide)),
    (claim_C10.2.2.1 5 (by decide) (by decide) (by norm_num)).1⟩

/-- C10, counterexample: `2^31 + 1` is not a power of two, the largest power
of two not exceeding it is `2^31`, yet `exp_floor_log` returns `0`: the
claimed value is wrong for non-powers above `2^31`. -/
theorem claim_C10_counterexample :
    is_power (2 ^ 31 + 1) = false ∧ Nat.log2 (2 ^ 31 + 1) = 31 ∧
      exp_floor_log (2 ^ 31 + 1) = 0 := by
  have h232 : (2 : Nat) ^ 32 = 2 * 2 ^ 31 := by
    rw [pow_succ]
    ring
  have h131 : (1 : Nat) ≤ 2 ^ 31 := Nat.one_le_two_pow
  have hnp : is_power (2 ^ 31 + 1) = false := by
    cases hip : is_power (2 ^ 31 + 1) with
    | false => rfl
    | true =>
      exfalso
      obtain ⟨k, hk⟩ := (is_power_iff _).1 hip
      rcases le_or_lt k 31 with hle | hgt
      · have : (2 : Nat) ^ k ≤ 2 ^ 31 := Nat.pow_le_pow_right (by omega) hle
        omega
      · have : (2 : Nat) ^ 32 ≤ 2 ^ k := Nat.pow_le_pow_right (by omega) (by omega)
        omega
  refine ⟨hnp, ?_, exp_floor_log_nonpow_big hnp (by omega) (by omega)⟩
  have hlo : 31 ≤ Nat.log2 (2 ^ 31 + 1) := by
    rw [Nat.le_log2 (by omega)]
    omega
  have hhi : Nat.log2 (2 ^ 31 + 1) < 32 := by
    rw [Nat.log2_lt (by omega)]
    omega
  omega

end CTree
